import Mathlib

/-!
# Verification of the wolfdog-generator site pipeline

A shallow embedding of the static-site generator's core (src/index.ts,
src/junkyard.ts, src/types.ts) in Lean 4, together with theorems settling
the frozen specification claims.

Conventions of the embedding:
* Node's lexical path handling (`path.resolve`, `path.join`,
  `String.prototype.startsWith`) is modelled over POSIX-style paths;
  an absolute path is represented by its list of segments.
* Filesystem state is explicit: a directory tree value (`FNode`), and an
  access outcome (`FsEntry`) that distinguishes a present node, an absent
  path (ENOENT) and any other filesystem failure.
* JavaScript exceptions become `Except` / `Option` results.
* The Handlebars engine is an external collaborator; template rendering is
  an uninterpreted function parameter.
-/

namespace Wolfdog

open scoped List

/-! ## Lexical path model (Node `path.resolve` / `path.join`, POSIX) -/

/-- Split a list of characters on a separator (model of
`String.prototype.split` with a single-character separator). -/
def splitCharsOn (sep : Char) : List Char → List (List Char)
  | [] => [[]]
  | c :: rest =>
    if c = sep then [] :: splitCharsOn sep rest
    else
      match splitCharsOn sep rest with
      | [] => [[c]]
      | h :: t => (c :: h) :: t

/-- Split a string on a separator character. -/
def splitStrOn (sep : Char) (s : String) : List String :=
  (splitCharsOn sep s.data).map (fun l => ⟨l⟩)

/-- The segments of a path string. -/
def splitOnSlash (s : String) : List String :=
  splitStrOn '/' s

/-- Process one raw segment during lexical resolution: empty and `"."`
segments are dropped, `".."` pops the last resolved segment (never above
the root), anything else is appended. -/
def applySeg (acc : List String) (seg : String) : List String :=
  if seg = "" ∨ seg = "." then acc
  else if seg = ".." then acc.dropLast
  else acc ++ [seg]

/-- Model of Node `path.resolve(base, rel)` for an already-resolved
absolute `base` (given as segments): if `rel` is absolute it replaces the
base, then the segments of `rel` are folded in lexically. -/
def resolveRel (base : List String) (rel : String) : List String :=
  (splitOnSlash rel).foldl applySeg (if rel.data.head? = some '/' then [] else base)

/-- The characters of an absolute path with the given segments:
`'/'` before every segment. -/
def encodeSegs (segs : List String) : List Char :=
  segs.flatMap (fun s => '/' :: s.data)

/-- Render an absolute path from its segments (the string Node
`path.resolve` returns). -/
def renderAbs (segs : List String) : String :=
  if segs = [] then "/" else ⟨encodeSegs segs⟩

/-- Model of JavaScript `String.prototype.startsWith`. -/
def jsStartsWith (s pre : String) : Bool :=
  decide (pre.data <+: s.data)

/-- Collapse runs of `'/'` into a single `'/'`. -/
def squashSlashes : List Char → List Char
  | [] => []
  | c :: rest =>
    if c = '/' then
      if (squashSlashes rest).head? = some '/' then squashSlashes rest
      else '/' :: squashSlashes rest
    else c :: squashSlashes rest

/-- Model of Node `path.join(a, b)` for arguments that contain no `"."` or
`".."` segments (the only way it is used in the embedded code paths):
concatenation with a separator, collapsing duplicate slashes. -/
def pathJoin (a b : String) : String :=
  ⟨squashSlashes (a.data ++ '/' :: b.data)⟩

/-- `parent` is a strict lexical ancestor of `child` (as segment lists). -/
def strictDescendant (child parent : List String) : Prop :=
  parent <+: child ∧ parent ≠ child

instance (child parent : List String) : Decidable (strictDescendant child parent) := by
  unfold strictDescendant; infer_instance

/-! ## Version parsing and compatibility (`parseVersion`, `checkManifestVersion`) -/

/-- Value of a decimal digit string (model of JavaScript `parseInt` on a
string of digits). -/
def digitsToNat (s : String) : Nat :=
  s.data.foldl (fun n c => n * 10 + (c.toNat - '0'.toNat)) 0

/-- A regex group `(\d+)`: nonempty, all decimal digits. -/
def isDigitStr (s : String) : Bool :=
  !s.data.isEmpty && s.data.all (·.isDigit)

/-- Embedding of `parseVersion`: match
`^(?<major>\d+)\.(?<minor>\d+)\.(?<revision>\d+)$` and parse the three
groups; `none` models the thrown `Error("Could not parse version number")`. -/
def parseVersion (version : String) : Option (Nat × Nat × Nat) :=
  match splitStrOn '.' version with
  | [a, b, c] =>
    if isDigitStr a && isDigitStr b && isDigitStr c then
      some (digitsToNat a, digitsToNat b, digitsToNat c)
    else none
  | _ => none

/-- The error message logged on a version incompatibility
(template-literal interpolation from the source). -/
def versionErrorMsg (manifestVersionStr generatorVersion : String) : String :=
  "❌ The website requires Wolfdog version " ++ manifestVersionStr ++
    ", but you're using version " ++ generatorVersion

/-- Embedding of `checkManifestVersion`. The generator's own version
(read from `package.json` at startup into the global `VERSION`) is passed
explicitly. Returns `none` when either version string fails to parse (the
thrown error), otherwise the boolean result together with the log lines
written to `LOGGER.error`. -/
def checkManifestVersion (generatorVersion manifestVersionStr : String) :
    Option (Bool × List String) :=
  match parseVersion generatorVersion, parseVersion manifestVersionStr with
  | some cur, some man =>
    if cur.1 ≠ man.1 ∨ cur.2.1 < man.2.1 ∨ (cur.2.1 = man.2.1 ∧ cur.2.2 < man.2.2) then
      some (false, [versionErrorMsg manifestVersionStr generatorVersion])
    else
      some (true, [])
  | _, _ => none

/-! ## Manifest data model (src/types.ts, `schemaSiteManifest`) -/

/-- Opaque JSON value carried through to templates
(`additionalValuesInTemplateScope`); numbers are modelled as integers. -/
inductive JsonValue where
  | null
  | bool (b : Bool)
  | num (n : Int)
  | str (s : String)
  | arr (elems : List JsonValue)
  | obj (fields : List (String × JsonValue))

/-- Publication-date formatting settings (`postSettings.postPubDate`). -/
structure PubDateSettings where
  formatString : String
  locale : String

/-- The `postSettings` group of the manifest. -/
structure PostSettings where
  postInputDir : String
  postOutputFileTemplate : String
  postTemplate : String
  postPubDate : PubDateSettings

/-- A parsed site manifest after zod validation and defaulting. -/
structure SiteManifest where
  version : String
  outputDir : String
  staticAssetsInputDir : String
  partialTemplatesDir : String
  additionalPageTemplatesDir : String
  additionalValuesInTemplateScope : Option JsonValue
  postSettings : PostSettings

/-- The schema defaults of src/types.ts applied to a manifest that
declares only `version`. -/
def defaultManifest (version : String) : SiteManifest :=
  { version
    outputDir := "dist/"
    staticAssetsInputDir := "static/"
    partialTemplatesDir := "templates/partials/"
    additionalPageTemplatesDir := "templates/additionalPages/"
    additionalValuesInTemplateScope := none
    postSettings :=
      { postInputDir := "posts/"
        postOutputFileTemplate := "posts/\x7b\x7bpost.slug\x7d\x7d/index.html"
        postTemplate := "templates/post.html.hbs"
        postPubDate := { formatString := "DDD", locale := "en-US" } } }

/-! ## Path guard (`checkIfOutsideOfProjectDir`, `checkIfInsideOutputDir`,
`manifestSanityChecks`) -/

/-- Embedding of `checkIfOutsideOfProjectDir`: `false` plus the logged
error when the candidate does not start with the project directory. -/
def checkIfOutsideOfProjectDir (projectDir directoryToCheck nameOfDirectoryToCheck : String) :
    Bool × Option String :=
  if !(jsStartsWith directoryToCheck projectDir) then
    (false, some ("❌ The " ++ nameOfDirectoryToCheck ++ " (" ++ directoryToCheck ++
      ") is outside of the project directory"))
  else
    (true, none)

/-- Embedding of `checkIfInsideOutputDir`: `false` plus the logged error
when the candidate starts with the output directory. -/
def checkIfInsideOutputDir (outputDir directoryToCheck nameOfDirectoryToCheck : String) :
    Bool × Option String :=
  if jsStartsWith directoryToCheck outputDir then
    (false, some ("❌ The " ++ nameOfDirectoryToCheck ++ " (" ++ directoryToCheck ++
      ") is inside of the output directory"))
  else
    (true, none)

/-- JavaScript `isValid &&= check(...)`: the right-hand side is evaluated
(and may log) only while the accumulator is still `true`. -/
def andAssign (acc : Bool × List String) (check : Unit → Bool × Option String) :
    Bool × List String :=
  if acc.1 then
    let r := check ()
    (r.1, acc.2 ++ r.2.toList)
  else
    acc

/-- The five configured paths checked against both the project root and the
output directory, with their role names (the `pathsToCheck` array). -/
def pathsToCheck (manifest : SiteManifest) : List (String × String) :=
  [(manifest.postSettings.postInputDir, "post input directory"),
   (manifest.postSettings.postTemplate, "post template"),
   (manifest.staticAssetsInputDir, "static asset directory"),
   (manifest.partialTemplatesDir, "partial templates directory"),
   (manifest.additionalPageTemplatesDir, "additional page template directory")]

/-- Embedding of `manifestSanityChecks`: returns the validity flag together
with every line written to `LOGGER.error`. -/
def manifestSanityChecks (baseDir : String) (manifest : SiteManifest) :
    Bool × List String :=
  let absBaseSegs := resolveRel [] baseDir
  let absBase := renderAbs absBaseSegs ++ "/"
  let absOutSegs := resolveRel absBaseSegs manifest.outputDir
  let absOut := renderAbs absOutSegs
  let st := andAssign (true, [])
    (fun _ => checkIfOutsideOfProjectDir absBase absOut "output directory")
  (pathsToCheck manifest).foldl
    (fun st pc =>
      let absPath := renderAbs (resolveRel absBaseSegs pc.1)
      andAssign
        (andAssign st (fun _ => checkIfOutsideOfProjectDir absBase absPath pc.2))
        (fun _ => checkIfInsideOutputDir absOut absPath pc.2))
    st

/-! ## Post corpus builder (`readAllPosts`) -/

/-- Lower-case a single ASCII character (enough for the case-insensitive
extension regexes `/\.html$/i`, `/\.json$/i`, `/\.hbs$/i`). -/
def charLower (c : Char) : Char :=
  if 'A' ≤ c ∧ c ≤ 'Z' then Char.ofNat (c.toNat + 32) else c

/-- `s.match(/suffix$/i)` for a literal suffix: the lower-cased suffix is a
suffix of the lower-cased string. -/
def endsWithCI (s ext : String) : Bool :=
  decide (ext.data.map charLower <:+ s.data.map charLower)

/-- `s.replace(/suffix$/i, "")` for a literal suffix: drop the matched tail
when it is present. -/
def stripSuffixCI (s ext : String) : String :=
  if endsWithCI s ext then ⟨s.data.take (s.data.length - ext.data.length)⟩ else s

/-- Post metadata after zod parsing (src/types.ts `schemaPostMetadata`);
`pubDate` is the instant's `valueOf()` in milliseconds. The optional
fields are irrelevant to the verified claims and omitted. -/
structure PostMetadata where
  title : String
  pubDate : Int
  deriving Repr, DecidableEq

/-- One assembled post (src/types.ts `SitePost`). -/
structure SitePost where
  slug : String
  pathToHtml : String
  pathToJson : String
  metadata : PostMetadata
  deriving Repr, DecidableEq

/-- One cell of the `posts` record in `readAllPosts`. -/
structure PairEntry where
  htmlFile : Option String := none
  jsonFile : Option String := none
  deriving Repr, DecidableEq

/-- `posts[slug][type] = file` on a record cell. -/
def setEntry (e : PairEntry) (isHtml : Bool) (file : String) : PairEntry :=
  if isHtml then { e with htmlFile := some file } else { e with jsonFile := some file }

/-- Insert or update a slug's cell. The association list stores the keys
in first-insertion order, as a JavaScript object stores its string keys;
the enumeration order of `Object.entries`, which moves array-index keys
to the front, is applied by `jsEntries` when the record is read out. -/
def insertPost (posts : List (String × PairEntry)) (slug : String) (isHtml : Bool)
    (file : String) : List (String × PairEntry) :=
  match posts with
  | [] => [(slug, setEntry {} isHtml file)]
  | (s, e) :: rest =>
    if s = slug then (s, setEntry e isHtml file) :: rest
    else (s, e) :: insertPost rest slug isHtml file

/-- Classify one scanned file as in the `for await` loop of `readAllPosts`:
`.html` (case-insensitive) wins, then `.json`; the slug is the file's full
relative path with the matched extension stripped. `none` means the file
goes to `unrecognized`. -/
def classifyFile (file : String) : Option (String × Bool) :=
  if endsWithCI file ".html" then some (stripSuffixCI file ".html", true)
  else if endsWithCI file ".json" then some (stripSuffixCI file ".json", false)
  else none

/-- The grouping loop of `readAllPosts` over the files yielded by
`readdirR`, producing the `posts` record and the `unrecognized` list. -/
def scanPosts (files : List String) : List (String × PairEntry) × List String :=
  files.foldl
    (fun acc file =>
      match classifyFile file with
      | some (slug, isHtml) => (insertPost acc.1 slug isHtml file, acc.2)
      | none => (acc.1, acc.2 ++ [file]))
    ([], [])

/-- Assemble one `SitePost` from a record cell (both files are present when
this runs — the non-null assertions `htmlFile!` / `jsonFile!` of the
source; metadata parsing is modelled by the total lookup `meta`, keyed by
the metadata file's path, since a parse failure throws and aborts). -/
def mkPost (postDir : String) (meta : String → PostMetadata) (slug : String)
    (e : PairEntry) : SitePost :=
  let pathToJson := pathJoin postDir (e.jsonFile.getD "")
  { slug
    pathToHtml := pathJoin postDir (e.htmlFile.getD "")
    pathToJson
    metadata := meta pathToJson }

/-- The comparator `-(postA.pubDate.valueOf() - postB.pubDate.valueOf())`:
`a` may precede `b` exactly when the comparator is `≤ 0`, i.e. when
`b.pubDate ≤ a.pubDate`. -/
def postLE (a b : SitePost) : Bool :=
  decide (b.metadata.pubDate ≤ a.metadata.pubDate)

/-- Insert `x` after every element that may precede it (`le y x`). -/
def insertDesc {α : Type} (le : α → α → Bool) (x : α) : List α → List α
  | [] => [x]
  | y :: ys => if le y x then y :: insertDesc le x ys else x :: y :: ys

/-- Model of JavaScript `Array.prototype.sort` with a consistent
comparator: since ES2019 the sort is stable, so for a total preorder the
result is the unique stable reordering, computed here by stable insertion
sort. -/
def jsSort {α : Type} (le : α → α → Bool) (l : List α) : List α :=
  l.foldl (fun acc x => insertDesc le x acc) []

/-- A canonical JavaScript array-index key: the decimal numeral (no
leading zero, except `"0"` itself) of an integer below `2^32 - 1`.
JavaScript objects enumerate such keys before all other string keys, in
ascending numeric order. -/
def isArrayIndex (s : String) : Bool :=
  isDigitStr s && (decide (s = "0") || !decide (s.data.head? = some '0')) &&
    decide (digitsToNat s < 4294967295)

/-- Ascending order on record cells by the numeric value of their keys
(only ever applied to array-index keys, which are pairwise distinct). -/
def keyLE (a b : String × PairEntry) : Bool :=
  decide (digitsToNat a.1 ≤ digitsToNat b.1)

/-- `Object.entries` on the `posts` record ([[OwnPropertyKeys]] of an
ordinary JavaScript object): array-index keys first, in ascending numeric
order, then the remaining keys in first-insertion order. -/
def jsEntries (posts : List (String × PairEntry)) : List (String × PairEntry) :=
  jsSort keyLE (posts.filter (fun pe => isArrayIndex pe.1)) ++
    posts.filter (fun pe => !isArrayIndex pe.1)

/-- Embedding of `readAllPosts`, given the relative paths yielded by
`readdirR(postDir)` in order. `none` models the `false` return after the
mismatch report; otherwise the posts sorted by publication date
descending, from the record's `Object.entries` enumeration order
(`jsEntries`), by a stable sort (JavaScript's `Array.prototype.sort` has
been stable since ES2019). The orphan filters only feed emptiness tests
and the error messages, so evaluating them on the insertion-ordered list
is equivalent (`jsEntries` is a permutation). -/
def readAllPosts (postDir : String) (files : List String)
    (meta : String → PostMetadata) : Option (List SitePost) :=
  let scanned := scanPosts files
  let posts := scanned.1
  let unrecognized := scanned.2
  let slugsWithNoHtml := (posts.filter (fun pe => pe.2.htmlFile.isNone)).map (·.1)
  let slugsWithNoJson := (posts.filter (fun pe => pe.2.jsonFile.isNone)).map (·.1)
  if !slugsWithNoHtml.isEmpty || !slugsWithNoJson.isEmpty || !unrecognized.isEmpty then
    none
  else
    some (jsSort postLE ((jsEntries posts).map (fun pe => mkPost postDir meta pe.1 pe.2)))

/-- Lookup of a slug's cell in the record (proof-side accessor for the
insertion-ordered association list). -/
def lookupSlug (posts : List (String × PairEntry)) (s : String) : Option PairEntry :=
  match posts with
  | [] => none
  | (k, e) :: rest => if k = s then some e else lookupSlug rest s

/-- The assembled post list in the program's pre-sort order: the record's
`Object.entries` enumeration order (`jsEntries`) — array-index slugs
ascending first, then the rest in discovery (first-insertion) order. -/
def assembledPosts (postDir : String) (files : List String)
    (meta : String → PostMetadata) : List SitePost :=
  (jsEntries (scanPosts files).1).map (fun pe => mkPost postDir meta pe.1 pe.2)

/-! ## Filesystem model and the recursive walker (src/junkyard.ts) -/

/-- A filesystem subtree: a regular file with its text content, or a
directory with a listing (in `fs.readdir` order). -/
inductive FNode where
  | file (content : String)
  | dir (entries : List (String × FNode))

mutual
/-- Number of nodes in a subtree (termination measure for the walker). -/
def nodeSize : FNode → Nat
  | .file _ => 1
  | .dir es => 1 + entriesSize es

/-- Total node count of a directory listing. -/
def entriesSize : List (String × FNode) → Nat
  | [] => 0
  | e :: rest => nodeSize e.2 + entriesSize rest
end

mutual
/-- All files reachable in a subtree, as (relative path, content), in
listing order (the structural specification the walker is proved
against). -/
def allFiles : FNode → List (List String × String)
  | .file c => [([], c)]
  | .dir es => allFilesEntries es

/-- All files reachable under a directory listing. -/
def allFilesEntries : List (String × FNode) → List (List String × String)
  | [] => []
  | e :: rest => (allFiles e.2).map (fun pc => (e.1 :: pc.1, pc.2)) ++ allFilesEntries rest
end

/-- Termination measure of the walker's stack. -/
def stackMeasure (queue : List (List String × FNode)) : Nat :=
  (queue.map (fun q => nodeSize q.2)).sum

/-- The pseudo-recursive loop of `readdirR` (src/junkyard.ts): pop a
pending item; a directory pushes its listing (popped next, in reverse
listing order), a file is yielded together with its content (the source
re-reads it by path later; the run is single-threaded, so carrying the
content is equivalent). The source keeps the stack's top at the array's
end; here the top is the head. -/
def readdirLoop : List (List String × FNode) → List (List String × String)
  | [] => []
  | (p, .file c) :: rest => (p, c) :: readdirLoop rest
  | (p, .dir es) :: rest =>
      readdirLoop ((es.map (fun e => (p ++ [e.1], e.2))).reverse ++ rest)
termination_by q => stackMeasure q
decreasing_by
  · simp only [stackMeasure, List.map_cons, List.sum_cons, nodeSize]
    omega
  · simp only [stackMeasure, List.map_append, List.sum_append, List.map_reverse,
      List.sum_reverse, List.map_map, List.map_cons, List.sum_cons, nodeSize]
    have h : ∀ es : List (String × FNode),
        (es.map ((fun q : List String × FNode => nodeSize q.2) ∘
          (fun e => (p ++ [e.1], e.2)))).sum = entriesSize es := by
      intro es
      induction es with
      | nil => simp [entriesSize]
      | cons e rest ih => simp [entriesSize, Function.comp, ih]
    rw [h]
    omega

/-- Outcome of accessing a configured path: a present node, an absent path
(ENOENT), or any other filesystem failure. -/
inductive FsEntry where
  | absent
  | failed (e : String)
  | node (n : FNode)

/-- Embedding of `fileExists` (src/junkyard.ts): ENOENT becomes `false`,
any other error is re-thrown. -/
def fileExists : FsEntry → Except String Bool
  | .absent => .ok false
  | .failed e => .error e
  | .node _ => .ok true

/-- Embedding of `readdirR` (src/junkyard.ts): an absent directory yields
nothing; other access failures, and `fs.readdir` on a non-directory,
throw. -/
def readdirR : FsEntry → Except String (List (List String × String))
  | .absent => .ok []
  | .failed e => .error e
  | .node (.file _) => .error "ENOTDIR"
  | .node (.dir es) =>
      .ok (readdirLoop ((es.map (fun e => ([e.1], e.2))).reverse))

/-- The string `readdirR` yields for a path (segments joined by `/`,
exactly what repeated `path.join(item, filename)` builds from plain
names). -/
def pathString : List String → String
  | [] => ""
  | [s] => s
  | s :: rest => s ++ "/" ++ pathString rest

/-! ## Pipeline phases (src/index.ts) -/

/-- Embedding of `readPartialTemplates`: an absent partials directory is
recovered as zero partials; any other access failure propagates. On
success, whether any partial was found, and the registered partials
`(name, body)` where the name is the path relative to the partials
directory. -/
def readPartialTemplates (partialTemplatesDir : FsEntry) :
    Except String (Bool × List (String × String)) :=
  match partialTemplatesDir with
  | .absent => .ok (false, [])
  | .failed e => .error e
  | .node (.file _) => .error "ENOTDIR"
  | .node (.dir es) =>
      let files := readdirLoop ((es.map (fun e => ([e.1], e.2))).reverse)
      .ok (!files.isEmpty, files.map (fun pc => (pathString pc.1, pc.2)))

/-- Embedding of the static-asset copy step of `main`
(`fs.cp(staticDir, outDir, { recursive: true })` with the ENOENT catch):
the files written into the output directory. Partial writes of a failed
copy are not modelled. -/
def staticCopy (staticDir : FsEntry) (outDir : String) :
    Except String (List (String × String)) :=
  match staticDir with
  | .absent => .ok []
  | .failed e => .error e
  | .node (.file c) => .ok [(outDir, c)]
  | .node (.dir es) =>
      .ok ((allFilesEntries es).map (fun pc => (pathJoin outDir (pathString pc.1), pc.2)))

/-- Embedding of `templateAndWriteAllPosts`: one write per post, at the
rendered output-path template joined under the output directory. The
Handlebars renders (post template and output-path template applied to the
per-post scope) are uninterpreted functions of the post. -/
def templateAndWriteAllPosts (allPosts : List SitePost)
    (renderPost : SitePost → String) (renderPostPath : SitePost → String)
    (outDir : String) : List (String × String) :=
  allPosts.map (fun post => (pathJoin outDir (renderPostPath post), renderPost post))

/-- One iteration of the `for await` loop of
`templateAndWriteAdditionalPages`, threading (found-any, writes,
warn-logs). -/
def additionalPageStep (render : String → String) (outDir additionalPagesPath : String)
    (acc : Bool × List (String × String) × List String) (pc : List String × String) :
    Bool × List (String × String) × List String :=
  let fileAbs := pathJoin additionalPagesPath (pathString pc.1)
  if !(endsWithCI fileAbs ".hbs") then
    (acc.1, acc.2.1,
      acc.2.2 ++ ["⚠️ Ignoring page: " ++ fileAbs ++ " (filename doesn't end with .hbs)"])
  else
    (true,
      acc.2.1 ++ [(stripSuffixCI (pathJoin outDir (pathString pc.1)) ".hbs", render pc.2)],
      acc.2.2)

/-- Embedding of `templateAndWriteAdditionalPages`: an absent directory is
recovered as "no pages found"; otherwise every file the walker yields is
classified by the case-insensitive `.hbs` suffix of its joined path.
Suffix-bearing files are rendered (against the fixed all-pages scope,
modelled by the uninterpreted `render`) and written to the mirrored output
path with the suffix stripped; other files are logged as ignored and
produce nothing. Returns (found-any, writes, warn-logs). -/
def templateAndWriteAdditionalPages (additionalPagesDir : FsEntry)
    (render : String → String) (outDir : String) (additionalPagesPath : String) :
    Except String (Bool × List (String × String) × List String) :=
  match additionalPagesDir with
  | .absent => .ok (false, [], [])
  | .failed e => .error e
  | .node (.file _) => .error "ENOTDIR"
  | .node (.dir es) =>
      let files := readdirLoop ((es.map (fun e => ([e.1], e.2))).reverse)
      .ok (files.foldl (additionalPageStep render outDir additionalPagesPath) (false, [], []))

/-- Result of one generator run: whether it reached the final success
message, and every file written (path, content) in order. -/
structure RunResult where
  exitOk : Bool
  writes : List (String × String)
  deriving Repr, DecidableEq

/-- Embedding of `main` (after manifest parsing): version check, sanity
checks, output-directory creation (`mkdir` writes no file), static copy,
post corpus build, partial registration, post rendering, additional-page
walk. `exitOk := false` covers both `process.exit(1)` and an uncaught
throw; `writes` is everything written before that point. -/
def mainRun (generatorVersion baseDir : String) (manifest : SiteManifest)
    (staticE : FsEntry) (postE : FsEntry) (meta : String → PostMetadata)
    (partialsE : FsEntry) (additionalE : FsEntry)
    (renderPost renderPostPath : SitePost → String)
    (renderPage : String → String) : RunResult :=
  match checkManifestVersion generatorVersion manifest.version with
  | none => ⟨false, []⟩
  | some vres =>
    if !vres.1 then ⟨false, []⟩
    else if !(manifestSanityChecks baseDir manifest).1 then ⟨false, []⟩
    else
      let outDir := pathJoin baseDir manifest.outputDir
      match staticCopy staticE outDir with
      | .error _ => ⟨false, []⟩
      | .ok staticWrites =>
        match readdirR postE with
        | .error _ => ⟨false, staticWrites⟩
        | .ok postFiles =>
          match readAllPosts (pathJoin baseDir manifest.postSettings.postInputDir)
              (postFiles.map (fun pc => pathString pc.1)) meta with
          | none => ⟨false, staticWrites⟩
          | some allPosts =>
            match readPartialTemplates partialsE with
            | .error _ => ⟨false, staticWrites⟩
            | .ok _ =>
              let postWrites := templateAndWriteAllPosts allPosts renderPost
                renderPostPath outDir
              match templateAndWriteAdditionalPages additionalE renderPage outDir
                  (pathJoin baseDir manifest.additionalPageTemplatesDir) with
              | .error _ => ⟨false, staticWrites ++ postWrites⟩
              | .ok pres => ⟨true, staticWrites ++ postWrites ++ pres.2.1⟩

/-! ## Concrete instances used by the claim theorems -/

/-- A manifest in which two configured paths (the post input directory and
the static asset directory) escape the project root. -/
def manifestC1 : SiteManifest :=
  { defaultManifest "1.0.0" with
      outputDir := "dist"
      staticAssetsInputDir := "../out2"
      postSettings :=
        { (defaultManifest "1.0.0").postSettings with postInputDir := "../out1" } }

/-- A manifest whose post input directory escapes the project root. -/
def manifestC7a : SiteManifest :=
  { defaultManifest "1.0.0" with
      postSettings :=
        { (defaultManifest "1.0.0").postSettings with postInputDir := "../outside" } }

/-- A manifest whose static asset directory is nested inside the output
directory. -/
def manifestC7b : SiteManifest :=
  { defaultManifest "1.0.0" with
      outputDir := "dist"
      staticAssetsInputDir := "dist/raw" }

/-- A usable path segment: nonempty and free of separators. -/
def goodSeg (s : String) : Prop := s ≠ "" ∧ '/' ∉ s.data

/-- Metadata lookup for the three-post sorting example of the spec
(§8): `p1` published 2020-01-01, `p2` 2021-06-01, `p3` 2020-06-01
(epoch milliseconds). -/
def metaExample : String → PostMetadata := fun p =>
  if p = "posts/p1.json" then ⟨"first", 1577836800000⟩
  else if p = "posts/p2.json" then ⟨"second", 1622505600000⟩
  else ⟨"third", 1590969600000⟩

/-- Trivial metadata lookup for pairing examples. -/
def metaZero : String → PostMetadata := fun _ => ⟨"t", 0⟩

/-- Well-formedness of a filesystem subtree: sibling names are distinct,
nonempty and free of separators (what a real directory guarantees). -/
inductive WfNode : FNode → Prop where
  | file (content : String) : WfNode (.file content)
  | dir (es : List (String × FNode)) :
      (es.map Prod.fst).Nodup →
      (∀ e ∈ es, goodSeg e.1) →
      (∀ e ∈ es, WfNode e.2) →
      WfNode (.dir es)

/-- The additional-page writes the spec predicts for a directory tree:
one write per reachable file whose relative path ends in `.hbs`
(case-insensitively), at the mirrored output path with the suffix
stripped, containing the rendered template. -/
def pageOutputs (render : String → String) (outDir : String)
    (es : List (String × FNode)) : List (String × String) :=
  (allFilesEntries es).filterMap (fun pc =>
    if endsWithCI (pathString pc.1) ".hbs" then
      some (stripSuffixCI (pathJoin outDir (pathString pc.1)) ".hbs", render pc.2)
    else none)

/-- The ignore warnings the spec predicts: one per reachable file whose
relative path does not end in `.hbs`. -/
def pageIgnores (additionalPagesPath : String) (es : List (String × FNode)) : List String :=
  (allFilesEntries es).filterMap (fun pc =>
    if endsWithCI (pathString pc.1) ".hbs" then none
    else some ("⚠️ Ignoring page: " ++ pathJoin additionalPagesPath (pathString pc.1) ++
      " (filename doesn't end with .hbs)"))

/-- Concrete additional-pages tree for the walker witness. -/
def pagesC8 : List (String × FNode) := [("top.hbs", .file "T"), ("c.txt", .file "C")]

/-! ## Lemmas about the lexical path model -/

theorem splitCharsOn_no_sep (sep : Char) :
    ∀ l piece, piece ∈ splitCharsOn sep l → sep ∉ piece := by
  intro l
  induction l with
  | nil =>
    intro piece hp
    rw [splitCharsOn] at hp
    rcases List.mem_singleton.mp hp with rfl
    simp
  | cons c rest ih =>
    intro piece hp
    rw [splitCharsOn] at hp
    by_cases hc : c = sep
    · rw [if_pos hc] at hp
      rcases List.mem_cons.mp hp with rfl | h
      · simp
      · exact ih piece h
    · rw [if_neg hc] at hp
      cases hrec : splitCharsOn sep rest with
      | nil =>
        rw [hrec] at hp
        rcases List.mem_singleton.mp hp with rfl
        intro hm
        rcases List.mem_singleton.mp hm with rfl
        exact hc rfl
      | cons hd t =>
        rw [hrec] at hp
        rcases List.mem_cons.mp hp with rfl | h1
        · intro hm
          rcases List.mem_cons.mp hm with rfl | h2
          · exact hc rfl
          · exact ih hd (hrec ▸ List.mem_cons_self hd t) h2
        · exact ih piece (hrec ▸ List.mem_cons_of_mem hd h1)

theorem applySeg_good (acc : List String) (seg : String)
    (hacc : ∀ s ∈ acc, goodSeg s) (hseg : '/' ∉ seg.data) :
    ∀ s ∈ applySeg acc seg, goodSeg s := by
  intro s hs
  unfold applySeg at hs
  split_ifs at hs with h1 h2
  · exact hacc s hs
  · exact hacc s (List.dropLast_subset _ hs)
  · rcases List.mem_append.mp hs with h | h
    · exact hacc s h
    · simp only [List.mem_singleton] at h
      subst h
      push_neg at h1
      exact ⟨h1.1, hseg⟩

theorem foldl_applySeg_good :
    ∀ (segs : List String) (acc : List String),
      (∀ p ∈ segs, '/' ∉ p.data) → (∀ s ∈ acc, goodSeg s) →
      ∀ s ∈ segs.foldl applySeg acc, goodSeg s := by
  intro segs
  induction segs with
  | nil => intro acc _ hacc s hs; exact hacc s hs
  | cons p rest ih =>
    intro acc hsegs hacc s hs
    exact ih (applySeg acc p)
      (fun q hq => hsegs q (List.mem_cons_of_mem p hq))
      (applySeg_good acc p hacc (hsegs p (List.mem_cons_self p rest))) s hs

theorem resolveRel_good (base : List String) (rel : String)
    (hbase : ∀ s ∈ base, goodSeg s) :
    ∀ s ∈ resolveRel base rel, goodSeg s := by
  unfold resolveRel
  apply foldl_applySeg_good
  · intro p hp
    unfold splitOnSlash splitStrOn at hp
    rcases List.mem_map.mp hp with ⟨piece, hpiece, rfl⟩
    exact fun hin => splitCharsOn_no_sep '/' rel.data piece hpiece hin
  · split_ifs
    · intro s hs; simp at hs
    · exact hbase

theorem encodeSegs_shape (pre : List String) :
    ∃ a, encodeSegs pre ++ ['/'] = '/' :: a := by
  cases pre with
  | nil => exact ⟨[], rfl⟩
  | cons p rest =>
    exact ⟨p.data ++ encodeSegs rest ++ ['/'], by simp [encodeSegs]⟩

theorem encodeSegs_tail_shape (sl : List String) :
    encodeSegs sl = [] ∨ ∃ b, encodeSegs sl = '/' :: b := by
  cases sl with
  | nil => exact .inl rfl
  | cons s rest => exact .inr ⟨s.data ++ encodeSegs rest, by simp [encodeSegs]⟩

theorem prefix_slash_block :
    ∀ (u v a b : List Char),
      '/' ∉ u → '/' ∉ v → (b = [] ∨ ∃ b', b = '/' :: b') →
      (u ++ '/' :: a) <+: (v ++ b) → u = v ∧ ('/' :: a) <+: b := by
  intro u
  induction u with
  | nil =>
    intro v a b _ hv _ h
    cases v with
    | nil => exact ⟨rfl, by simpa using h⟩
    | cons d v' =>
      simp only [List.nil_append, List.cons_append, List.cons_prefix_cons] at h
      exact absurd (h.1 ▸ List.mem_cons_self d v') hv
  | cons c u' ih =>
    intro v a b hu hv hb h
    cases v with
    | nil =>
      rcases hb with rfl | ⟨b', rfl⟩
      · have := h.length_le
        simp at this
      · simp only [List.cons_append, List.nil_append, List.cons_prefix_cons] at h
        exact absurd (h.1 ▸ List.mem_cons_self c u') hu
    | cons d v' =>
      simp only [List.cons_append, List.cons_prefix_cons] at h
      obtain ⟨rfl, h2⟩ := h
      obtain ⟨he, hp⟩ := ih v' a b
        (fun hx => hu (List.mem_cons_of_mem c hx))
        (fun hx => hv (List.mem_cons_of_mem c hx)) hb h2
      exact ⟨by rw [he], hp⟩

theorem encode_prefix_strict :
    ∀ (pre sl : List String),
      (∀ s ∈ pre, goodSeg s) → (∀ s ∈ sl, goodSeg s) →
      (encodeSegs pre ++ ['/']) <+: encodeSegs sl → pre <+: sl ∧ pre ≠ sl := by
  intro pre
  induction pre with
  | nil =>
    intro sl _ _ h
    cases sl with
    | nil =>
      have := h.length_le
      simp [encodeSegs] at this
    | cons s sl' => exact ⟨List.nil_prefix, by simp⟩
  | cons p pre' ih =>
    intro sl hpre hsl h
    cases sl with
    | nil =>
      have := h.length_le
      simp [encodeSegs] at this
    | cons s sl' =>
      have h' : '/' :: (p.data ++ (encodeSegs pre' ++ ['/'])) <+:
          '/' :: (s.data ++ encodeSegs sl') := by
        simpa [encodeSegs, List.append_assoc] using h
      have h2 := (List.cons_prefix_cons.mp h').2
      obtain ⟨a, ha⟩ := encodeSegs_shape pre'
      rw [ha] at h2
      obtain ⟨hud, hpp⟩ := prefix_slash_block p.data s.data a (encodeSegs sl')
        (hpre p (List.mem_cons_self p pre')).2
        (hsl s (List.mem_cons_self s sl')).2
        (encodeSegs_tail_shape sl') h2
      have hps : p = s := String.ext hud
      rw [← ha] at hpp
      obtain ⟨h1, hne⟩ := ih sl'
        (fun q hq => hpre q (List.mem_cons_of_mem p hq))
        (fun q hq => hsl q (List.mem_cons_of_mem s hq)) hpp
      subst hps
      refine ⟨List.cons_prefix_cons.mpr ⟨rfl, h1⟩, ?_⟩
      intro heq
      exact hne (List.cons.injEq _ _ _ _ ▸ heq |>.2)

theorem goodSeg_data_ne_nil {s : String} (h : goodSeg s) : s.data ≠ [] := by
  intro hnil
  exact h.1 (String.ext (by rw [hnil]))

theorem renderAbs_nil : renderAbs [] = "/" := rfl

theorem renderAbs_cons (s : String) (l : List String) :
    renderAbs (s :: l) = ⟨encodeSegs (s :: l)⟩ := if_neg (by simp)

theorem startsWith_base_strict (base segs : List String)
    (hbase : ∀ s ∈ base, goodSeg s) (hsegs : ∀ s ∈ segs, goodSeg s)
    (h : jsStartsWith (renderAbs segs) (renderAbs base ++ "/") = true) :
    strictDescendant segs base := by
  have hpre : (renderAbs base).data ++ ['/'] <+: (renderAbs segs).data := by
    have h2 := of_decide_eq_true h
    simpa [String.data_append] using h2
  cases base with
  | nil =>
    rw [renderAbs_nil] at hpre
    cases segs with
    | nil =>
      rw [renderAbs_nil] at hpre
      have hle := hpre.length_le
      rw [show ("/" : String).data = ['/'] from rfl] at hle
      simp at hle
    | cons s segs' =>
      exfalso
      rw [renderAbs_cons] at hpre
      have hshape : encodeSegs (s :: segs') = '/' :: (s.data ++ encodeSegs segs') := by
        simp [encodeSegs]
      rw [show ("/" : String).data = ['/'] from rfl,
        show (⟨encodeSegs (s :: segs')⟩ : String).data = encodeSegs (s :: segs') from rfl,
        hshape] at hpre
      simp only [List.cons_append, List.nil_append, List.cons_prefix_cons] at hpre
      obtain ⟨-, hpre2⟩ := hpre
      cases hd : s.data with
      | nil => exact goodSeg_data_ne_nil (hsegs s (List.mem_cons_self s segs')) hd
      | cons c cs =>
        rw [hd] at hpre2
        simp only [List.cons_append, List.cons_prefix_cons] at hpre2
        exact (hsegs s (List.mem_cons_self s segs')).2
          (by rw [hd, ← hpre2.1]; exact List.mem_cons_self _ _)
  | cons b base' =>
    rw [renderAbs_cons] at hpre
    cases segs with
    | nil =>
      exfalso
      rw [renderAbs_nil] at hpre
      have hle := hpre.length_le
      rw [show ("/" : String).data = ['/'] from rfl,
        show (⟨encodeSegs (b :: base')⟩ : String).data = encodeSegs (b :: base') from rfl] at hle
      simp [encodeSegs] at hle
    | cons s segs' =>
      rw [renderAbs_cons] at hpre
      exact encode_prefix_strict (b :: base') (s :: segs') hbase hsegs hpre

theorem encodeSegs_append (l₁ l₂ : List String) :
    encodeSegs (l₁ ++ l₂) = encodeSegs l₁ ++ encodeSegs l₂ := by
  simp [encodeSegs]

theorem prefix_implies_startsWith (out segs : List String) (h : out <+: segs) :
    jsStartsWith (renderAbs segs) (renderAbs out) = true := by
  apply decide_eq_true
  cases out with
  | nil =>
    cases segs with
    | nil => simp
    | cons s segs' =>
      rw [show renderAbs ([] : List String) = "/" from rfl,
        show renderAbs (s :: segs') = ⟨encodeSegs (s :: segs')⟩ from if_neg (by simp)]
      show ("/" : String).data <+: encodeSegs (s :: segs')
      rw [show ("/" : String).data = ['/'] from rfl,
        show encodeSegs (s :: segs') = '/' :: (s.data ++ encodeSegs segs') by simp [encodeSegs]]
      exact List.cons_prefix_cons.mpr ⟨rfl, List.nil_prefix⟩
  | cons o out' =>
    obtain ⟨t, rfl⟩ := h
    rw [show renderAbs (o :: out') = ⟨encodeSegs (o :: out')⟩ from if_neg (by simp),
      show renderAbs (o :: out' ++ t) = ⟨encodeSegs (o :: out' ++ t)⟩ from if_neg (by simp)]
    show encodeSegs (o :: out') <+: encodeSegs (o :: out' ++ t)
    rw [encodeSegs_append]
    exact List.prefix_append _ _

theorem andAssign_true {st : Bool × List String} {c : Unit → Bool × Option String}
    (h : (andAssign st c).1 = true) : st.1 = true ∧ (c ()).1 = true := by
  unfold andAssign at h
  by_cases hst : st.1 = true
  · rw [if_pos hst] at h
    exact ⟨hst, h⟩
  · rw [if_neg hst] at h
    exact absurd h hst

theorem checkOutside_true {a b n : String}
    (h : (checkIfOutsideOfProjectDir a b n).1 = true) : jsStartsWith b a = true := by
  cases hj : jsStartsWith b a with
  | true => rfl
  | false => simp [checkIfOutsideOfProjectDir, hj] at h

theorem checkInside_true {a b n : String}
    (h : (checkIfInsideOutputDir a b n).1 = true) : jsStartsWith b a = false := by
  cases hj : jsStartsWith b a with
  | true => simp [checkIfInsideOutputDir, hj] at h
  | false => rfl

/-! ## Lemmas about the stable sort model -/

theorem insertDesc_perm {α : Type} (le : α → α → Bool) (x : α) :
    ∀ s : List α, insertDesc le x s ~ x :: s := by
  intro s
  induction s with
  | nil => rfl
  | cons y ys ih =>
    rw [insertDesc]
    by_cases h : le y x = true
    · rw [if_pos h]
      exact (ih.cons y).trans (List.Perm.swap x y ys)
    · rw [if_neg h]

theorem jsSort_perm {α : Type} (le : α → α → Bool) (l : List α) : jsSort le l ~ l := by
  have aux : ∀ (l acc : List α), l.foldl (fun acc x => insertDesc le x acc) acc ~ acc ++ l := by
    intro l
    induction l with
    | nil => simp
    | cons f rest ih =>
      intro acc
      calc (f :: rest).foldl (fun acc x => insertDesc le x acc) acc
          = rest.foldl (fun acc x => insertDesc le x acc) (insertDesc le f acc) := rfl
        _ ~ insertDesc le f acc ++ rest := ih _
        _ ~ (f :: acc) ++ rest := (insertDesc_perm le f acc).append_right rest
        _ ~ acc ++ (f :: rest) := by
            simpa using (@List.perm_middle _ f acc rest).symm
  simpa using aux l []

theorem insertDesc_pairwise {α : Type} {le : α → α → Bool}
    (htrans : ∀ a b c, le a b = true → le b c = true → le a c = true)
    (htotal : ∀ a b, le a b = true ∨ le b a = true)
    (x : α) : ∀ {s : List α}, s.Pairwise (fun a b => le a b = true) →
      (insertDesc le x s).Pairwise (fun a b => le a b = true) := by
  intro s
  induction s with
  | nil => intro _; simp [insertDesc]
  | cons y ys ih =>
    intro hs
    rw [List.pairwise_cons] at hs
    obtain ⟨hy, hys⟩ := hs
    rw [insertDesc]
    by_cases h : le y x = true
    · rw [if_pos h]
      rw [List.pairwise_cons]
      refine ⟨?_, ih hys⟩
      intro z hz
      rcases List.mem_cons.mp ((insertDesc_perm le x ys).mem_iff.mp hz) with rfl | hz'
      · exact h
      · exact hy z hz'
    · rw [if_neg h]
      have hxy : le x y = true := by
        rcases htotal x y with h1 | h1
        · exact h1
        · exact absurd h1 h
      rw [List.pairwise_cons]
      constructor
      · intro z hz
        rcases List.mem_cons.mp hz with rfl | hz'
        · exact hxy
        · exact htrans x y z hxy (hy z hz')
      · rw [List.pairwise_cons]
        exact ⟨hy, hys⟩

theorem jsSort_pairwise {α : Type} {le : α → α → Bool}
    (htrans : ∀ a b c, le a b = true → le b c = true → le a c = true)
    (htotal : ∀ a b, le a b = true ∨ le b a = true)
    (l : List α) : (jsSort le l).Pairwise (fun a b => le a b = true) := by
  have aux : ∀ (l acc : List α), acc.Pairwise (fun a b => le a b = true) →
      (l.foldl (fun acc x => insertDesc le x acc) acc).Pairwise (fun a b => le a b = true) := by
    intro l
    induction l with
    | nil => intro acc h; exact h
    | cons f rest ih =>
      intro acc h
      exact ih _ (insertDesc_pairwise htrans htotal f h)
  exact aux l [] (by simp)

theorem insertDesc_filter {α : Type} {le : α → α → Bool}
    (htrans : ∀ a b c, le a b = true → le b c = true → le a c = true)
    {p : α → Bool} (x : α) :
    ∀ {s : List α}, s.Pairwise (fun a b => le a b = true) →
      (p x = true → ∀ z ∈ s, p z = true → le z x = true) →
      (insertDesc le x s).filter p = s.filter p ++ (if p x = true then [x] else []) := by
  intro s
  induction s with
  | nil =>
    intro _ _
    simp only [insertDesc, List.filter_nil, List.nil_append, List.filter]
    cases hpx : p x <;> simp
  | cons y ys ih =>
    intro hs hp
    rw [List.pairwise_cons] at hs
    obtain ⟨hy, hys⟩ := hs
    rw [insertDesc]
    by_cases h : le y x = true
    · rw [if_pos h]
      have ihr := ih hys (fun hpx z hz hpz => hp hpx z (List.mem_cons_of_mem y hz) hpz)
      cases hpy : p y with
      | true =>
        rw [List.filter_cons_of_pos hpy, List.filter_cons_of_pos hpy, ihr, List.cons_append]
      | false =>
        rw [List.filter_cons_of_neg (by simp [hpy]), List.filter_cons_of_neg (by simp [hpy]), ihr]
    · rw [if_neg h]
      cases hpx : p x with
      | false =>
        rw [List.filter_cons_of_neg (by simp [hpx])]
        simp
      | true =>
        have hnil : (y :: ys).filter p = [] := by
          rw [List.filter_eq_nil_iff]
          intro z hz hpz
          rcases List.mem_cons.mp hz with rfl | hz'
          · exact h (hp hpx z hz hpz)
          · exact h (htrans y z x (hy z hz') (hp hpx z hz hpz))
        rw [List.filter_cons_of_pos hpx, hnil]
        simp

theorem jsSort_filter {α : Type} {le : α → α → Bool}
    (htrans : ∀ a b c, le a b = true → le b c = true → le a c = true)
    (htotal : ∀ a b, le a b = true ∨ le b a = true)
    {p : α → Bool} (htie : ∀ a b, p a = true → p b = true → le a b = true)
    (l : List α) : (jsSort le l).filter p = l.filter p := by
  have aux : ∀ (l acc : List α), acc.Pairwise (fun a b => le a b = true) →
      (l.foldl (fun acc x => insertDesc le x acc) acc).filter p =
        acc.filter p ++ l.filter p := by
    intro l
    induction l with
    | nil => intro acc _; simp
    | cons f rest ih =>
      intro acc hacc
      have step : (insertDesc le f acc).filter p =
          acc.filter p ++ (if p f = true then [f] else []) :=
        insertDesc_filter htrans f hacc (fun hpf z _ hpz => htie z f hpz hpf)
      calc ((f :: rest).foldl (fun acc x => insertDesc le x acc) acc).filter p
          = (rest.foldl (fun acc x => insertDesc le x acc) (insertDesc le f acc)).filter p := rfl
        _ = (insertDesc le f acc).filter p ++ rest.filter p :=
            ih _ (insertDesc_pairwise htrans htotal f hacc)
        _ = acc.filter p ++ ((if p f = true then [f] else []) ++ rest.filter p) := by
            rw [step, List.append_assoc]
        _ = acc.filter p ++ (f :: rest).filter p := by
            cases hpf : p f with
            | true => rw [List.filter_cons_of_pos hpf]; simp
            | false => rw [List.filter_cons_of_neg (by simp [hpf])]; simp
  simpa using aux l [] (by simp)

theorem jsEntries_perm (posts : List (String × PairEntry)) : jsEntries posts ~ posts := by
  unfold jsEntries
  refine ((jsSort_perm keyLE _).append_right _).trans ?_
  exact List.filter_append_perm _ posts

theorem isDigitStr_a_slash (base : String) : isDigitStr ("a/" ++ base) = false := by
  unfold isDigitStr
  rw [show ("a/" ++ base).data = 'a' :: '/' :: base.data from by
    rw [String.data_append]
    rfl]
  simp [List.all_cons, show 'a'.isDigit = false from by decide]

theorem isArrayIndex_a_slash (base : String) : isArrayIndex ("a/" ++ base) = false := by
  unfold isArrayIndex
  rw [isDigitStr_a_slash]
  rfl

theorem jsEntries_singleton_not_index {s : String} {e : PairEntry}
    (h : isArrayIndex s = false) : jsEntries [(s, e)] = [(s, e)] := by
  unfold jsEntries
  rw [show ([(s, e)].filter (fun pe => isArrayIndex pe.1)) = [] from by
      simp [List.filter_cons, h],
    show ([(s, e)].filter (fun pe => !isArrayIndex pe.1)) = [(s, e)] from by
      simp [List.filter_cons, h]]
  rfl

theorem postLE_trans : ∀ a b c, postLE a b = true → postLE b c = true → postLE a c = true := by
  intro a b c h1 h2
  have g1 := of_decide_eq_true h1
  have g2 := of_decide_eq_true h2
  exact decide_eq_true (le_trans g2 g1)

theorem postLE_total : ∀ a b, postLE a b = true ∨ postLE b a = true := by
  intro a b
  rcases le_total a.metadata.pubDate b.metadata.pubDate with h | h
  · exact .inr (decide_eq_true h)
  · exact .inl (decide_eq_true h)

/-! ## Lemmas about case-insensitive extensions and file classification -/

theorem endsWithCI_append_self (x ext : String) : endsWithCI (x ++ ext) ext = true := by
  apply decide_eq_true
  rw [String.data_append, List.map_append]
  exact List.suffix_append _ _

theorem stripSuffixCI_append (x ext : String) : stripSuffixCI (x ++ ext) ext = x := by
  unfold stripSuffixCI
  rw [if_pos (endsWithCI_append_self x ext)]
  apply String.ext
  show (x ++ ext).data.take ((x ++ ext).data.length - ext.data.length) = x.data
  rw [String.data_append, List.length_append,
    show x.data.length + ext.data.length - ext.data.length = x.data.length by omega]
  exact List.take_left x.data ext.data

theorem suffix_eq_of_length {α : Type} {l₁ l₂ l : List α} (h₁ : l₁ <:+ l) (h₂ : l₂ <:+ l)
    (hlen : l₁.length = l₂.length) : l₁ = l₂ := by
  obtain ⟨t₁, rfl⟩ := h₁
  obtain ⟨t₂, ht⟩ := h₂
  have hl : t₂.length = t₁.length := by
    have hlen2 := congrArg List.length ht
    simp only [List.length_append] at hlen2
    omega
  exact ((List.append_inj ht hl).2).symm

theorem not_html_of_json {f : String} (h : endsWithCI f ".json" = true) :
    endsWithCI f ".html" = false := by
  apply decide_eq_false
  intro h2
  exact absurd (suffix_eq_of_length h2 (of_decide_eq_true h) (by decide)) (by decide)

theorem classifyFile_html_iff {f s : String} :
    classifyFile f = some (s, true) ↔
      endsWithCI f ".html" = true ∧ stripSuffixCI f ".html" = s := by
  unfold classifyFile
  by_cases hh : endsWithCI f ".html" = true
  · rw [if_pos hh]
    simp [hh]
  · rw [if_neg hh]
    by_cases hj : endsWithCI f ".json" = true
    · rw [if_pos hj]
      simp [hh]
    · rw [if_neg hj]
      simp [hh]

theorem classifyFile_json_iff {f s : String} :
    classifyFile f = some (s, false) ↔
      endsWithCI f ".json" = true ∧ stripSuffixCI f ".json" = s := by
  unfold classifyFile
  by_cases hh : endsWithCI f ".html" = true
  · rw [if_pos hh]
    constructor
    · intro h
      simp at h
    · rintro ⟨hj, -⟩
      rw [not_html_of_json hj] at hh
      exact absurd hh (by simp)
  · rw [if_neg hh]
    by_cases hj : endsWithCI f ".json" = true
    · rw [if_pos hj]
      simp [hj]
    · rw [if_neg hj]
      simp [hj]

theorem classifyFile_none_iff {f : String} :
    classifyFile f = none ↔
      endsWithCI f ".html" = false ∧ endsWithCI f ".json" = false := by
  unfold classifyFile
  by_cases hh : endsWithCI f ".html" = true
  · rw [if_pos hh]
    simp [hh]
  · rw [if_neg hh]
    by_cases hj : endsWithCI f ".json" = true
    · rw [if_pos hj]
      simp [hj]
    · rw [if_neg hj]
      simp [Bool.not_eq_true] at hh hj
      simp [hh, hj]

/-! ## Lemmas about the grouping record of `readAllPosts` -/

theorem exists_mem_append_singleton {α : Type} {p : α → Prop} {l : List α} {a : α} :
    (∃ x ∈ l ++ [a], p x) ↔ (∃ x ∈ l, p x) ∨ p a := by
  constructor
  · rintro ⟨x, hx, hp⟩
    rcases List.mem_append.mp hx with h | h
    · exact .inl ⟨x, h, hp⟩
    · rcases List.mem_singleton.mp h with rfl
      exact .inr hp
  · rintro (⟨x, hx, hp⟩ | hp)
    · exact ⟨x, List.mem_append.mpr (.inl hx), hp⟩
    · exact ⟨a, List.mem_append.mpr (.inr (List.mem_singleton.mpr rfl)), hp⟩

theorem lookupSlug_insertPost (posts : List (String × PairEntry)) (slug : String)
    (b : Bool) (f : String) (q : String) :
    lookupSlug (insertPost posts slug b f) q =
      if q = slug then some (setEntry ((lookupSlug posts slug).getD {}) b f)
      else lookupSlug posts q := by
  induction posts with
  | nil =>
    by_cases hq : q = slug
    · subst hq
      simp [insertPost, lookupSlug]
    · simp [insertPost, lookupSlug, hq, Ne.symm hq]
  | cons ke rest ih =>
    obtain ⟨k, e⟩ := ke
    by_cases hk : k = slug
    · subst hk
      by_cases hq : q = k
      · subst hq
        simp [insertPost, lookupSlug]
      · simp [insertPost, lookupSlug, hq, Ne.symm hq]
    · by_cases hkq : k = q
      · subst hkq
        simp [insertPost, lookupSlug, hk, Ne.symm hk]
      · by_cases hq : q = slug
        · subst hq
          simp [insertPost, lookupSlug, hk, hkq, Ne.symm hk, Ne.symm hkq, ih]
        · simp [insertPost, lookupSlug, hk, hkq, hq, Ne.symm hk, Ne.symm hkq, ih]

theorem insertPost_keys (posts : List (String × PairEntry)) (slug : String)
    (b : Bool) (f : String) :
    (insertPost posts slug b f).map Prod.fst =
      if slug ∈ posts.map Prod.fst then posts.map Prod.fst
      else posts.map Prod.fst ++ [slug] := by
  induction posts with
  | nil => simp [insertPost]
  | cons ke rest ih =>
    obtain ⟨k, e⟩ := ke
    rw [insertPost]
    by_cases hk : k = slug
    · subst hk
      rw [if_pos rfl]
      simp
    · rw [if_neg hk]
      simp only [List.map_cons, ih]
      by_cases hmem : slug ∈ rest.map Prod.fst
      · rw [if_pos hmem, if_pos (List.mem_cons_of_mem k hmem)]
      · rw [if_neg hmem, if_neg (by
          intro h
          rcases List.mem_cons.mp h with h1 | h1
          · exact hk h1.symm
          · exact hmem h1)]
        rfl

theorem insertPost_keys_nodup {posts : List (String × PairEntry)}
    (h : (posts.map Prod.fst).Nodup) (slug : String) (b : Bool) (f : String) :
    ((insertPost posts slug b f).map Prod.fst).Nodup := by
  rw [insertPost_keys]
  by_cases hmem : slug ∈ posts.map Prod.fst
  · rw [if_pos hmem]
    exact h
  · rw [if_neg hmem]
    simp [List.nodup_append, h, hmem]

theorem mem_iff_lookupSlug {posts : List (String × PairEntry)}
    (hnd : (posts.map Prod.fst).Nodup) (s : String) (e : PairEntry) :
    (s, e) ∈ posts ↔ lookupSlug posts s = some e := by
  induction posts with
  | nil => simp [lookupSlug]
  | cons ke rest ih =>
    obtain ⟨k, e'⟩ := ke
    simp only [List.map_cons, List.nodup_cons] at hnd
    obtain ⟨hk, hnd'⟩ := hnd
    rw [lookupSlug]
    by_cases hks : k = s
    · subst hks
      rw [if_pos rfl]
      simp only [List.mem_cons]
      constructor
      · rintro (h | h)
        · injection h with h1 h2
          rw [h2]
        · exact absurd (List.mem_map_of_mem Prod.fst h) hk
      · intro h
        left
        injection h with h2
        rw [h2]
    · rw [if_neg hks]
      rw [← ih hnd']
      simp only [List.mem_cons]
      constructor
      · rintro (h | h)
        · injection h with h1 h2
          exact absurd h1.symm hks
        · exact h
      · exact .inr

theorem scanPosts_append_singleton (files : List String) (f : String) :
    scanPosts (files ++ [f]) =
      match classifyFile f with
      | some (slug, isHtml) =>
          (insertPost (scanPosts files).1 slug isHtml f, (scanPosts files).2)
      | none => ((scanPosts files).1, (scanPosts files).2 ++ [f]) := by
  unfold scanPosts
  rw [List.foldl_append, List.foldl_cons, List.foldl_nil]

theorem scanPosts_append_some {files : List String} {f slug : String} {b : Bool}
    (hc : classifyFile f = some (slug, b)) :
    scanPosts (files ++ [f]) =
      (insertPost (scanPosts files).1 slug b f, (scanPosts files).2) := by
  rw [scanPosts_append_singleton, hc]

theorem scanPosts_append_none {files : List String} {f : String}
    (hc : classifyFile f = none) :
    scanPosts (files ++ [f]) = ((scanPosts files).1, (scanPosts files).2 ++ [f]) := by
  rw [scanPosts_append_singleton, hc]

theorem scanPosts_unrec (files : List String) :
    (scanPosts files).2 = files.filter (fun f => (classifyFile f).isNone) := by
  induction files using List.reverseRecOn with
  | nil => rfl
  | append_singleton files f ih =>
    cases hc : classifyFile f with
    | none =>
      rw [scanPosts_append_none hc, List.filter_append]
      simp [hc, ih]
    | some sb =>
      obtain ⟨slug, b⟩ := sb
      rw [scanPosts_append_some hc, List.filter_append]
      simp [hc, ih]

theorem scanPosts_keys_nodup (files : List String) :
    ((scanPosts files).1.map Prod.fst).Nodup := by
  induction files using List.reverseRecOn with
  | nil => simp [scanPosts]
  | append_singleton files f ih =>
    cases hc : classifyFile f with
    | none =>
      rw [scanPosts_append_none hc]
      exact ih
    | some sb =>
      obtain ⟨slug, b⟩ := sb
      rw [scanPosts_append_some hc]
      exact insertPost_keys_nodup ih slug b f

theorem scanPosts_lookup (files : List String) (s : String) :
    ((lookupSlug (scanPosts files).1 s).isSome = true ↔
      ∃ f ∈ files, ∃ b, classifyFile f = some (s, b)) ∧
    (∀ e, lookupSlug (scanPosts files).1 s = some e →
      ((e.htmlFile.isSome = true ↔ ∃ f ∈ files, classifyFile f = some (s, true)) ∧
       (e.jsonFile.isSome = true ↔ ∃ f ∈ files, classifyFile f = some (s, false)))) := by
  induction files using List.reverseRecOn with
  | nil =>
    constructor
    · simp [scanPosts, lookupSlug]
    · intro e he
      simp [scanPosts, lookupSlug] at he
  | append_singleton files f ih =>
    obtain ⟨ih1, ih2⟩ := ih
    cases hc : classifyFile f with
    | none =>
      rw [scanPosts_append_none hc]
      constructor
      · rw [ih1, exists_mem_append_singleton]
        constructor
        · exact .inl
        · rintro (h | ⟨b, hb⟩)
          · exact h
          · rw [hc] at hb
            cases hb
      · intro e he
        obtain ⟨hh, hj⟩ := ih2 e he
        constructor
        · rw [hh, exists_mem_append_singleton]
          constructor
          · exact .inl
          · rintro (h | hb)
            · exact h
            · rw [hc] at hb
              cases hb
        · rw [hj, exists_mem_append_singleton]
          constructor
          · exact .inl
          · rintro (h | hb)
            · exact h
            · rw [hc] at hb
              cases hb
    | some sb =>
      obtain ⟨slug, b⟩ := sb
      rw [scanPosts_append_some hc]
      show ((lookupSlug (insertPost (scanPosts files).1 slug b f) s).isSome = true ↔ _) ∧ _
      rw [lookupSlug_insertPost]
      by_cases hs : s = slug
      · subst hs
        rw [if_pos rfl]
        constructor
        · simp only [Option.isSome_some, true_iff]
          exact exists_mem_append_singleton.mpr (.inr ⟨b, hc⟩)
        · intro e he
          injection he with he
          subst he
          have hval : ∀ b' : Bool, b' ≠ b →
              ((∃ g ∈ files ++ [f], classifyFile g = some (s, b')) ↔
                (∃ g ∈ files, classifyFile g = some (s, b'))) := by
            intro b' hb'
            rw [exists_mem_append_singleton]
            constructor
            · rintro (h | h)
              · exact h
              · rw [hc] at h
                injection h with h
                injection h with h1 h2
                exact absurd h2.symm hb'
            · exact .inl
          cases hl : lookupSlug (scanPosts files).1 s with
          | none =>
            have hempty : ¬ ∃ g ∈ files, ∃ b', classifyFile g = some (s, b') := by
              intro h
              have h2 := ih1.mpr h
              rw [hl] at h2
              cases h2
            cases b with
            | true =>
              constructor
              · show (some f).isSome = true ↔ _
                refine ⟨fun _ => exists_mem_append_singleton.mpr (.inr hc), fun _ => rfl⟩
              · show (none : Option String).isSome = true ↔ _
                constructor
                · intro h2
                  exact absurd h2 (by decide)
                · intro h2
                  rcases (hval false (by decide)).mp h2 with ⟨g, hg, hgc⟩
                  exact absurd ⟨g, hg, false, hgc⟩ hempty
            | false =>
              constructor
              · show (none : Option String).isSome = true ↔ _
                constructor
                · intro h2
                  exact absurd h2 (by decide)
                · intro h2
                  rcases (hval true (by decide)).mp h2 with ⟨g, hg, hgc⟩
                  exact absurd ⟨g, hg, true, hgc⟩ hempty
              · show (some f).isSome = true ↔ _
                refine ⟨fun _ => exists_mem_append_singleton.mpr (.inr hc), fun _ => rfl⟩
          | some e0 =>
            obtain ⟨hh0, hj0⟩ := ih2 e0 hl
            cases b with
            | true =>
              constructor
              · show (some f).isSome = true ↔ _
                refine ⟨fun _ => exists_mem_append_singleton.mpr (.inr hc), fun _ => rfl⟩
              · show e0.jsonFile.isSome = true ↔ _
                rw [hj0]
                exact (hval false (by decide)).symm
            | false =>
              constructor
              · show e0.htmlFile.isSome = true ↔ _
                rw [hh0]
                exact (hval true (by decide)).symm
              · show (some f).isSome = true ↔ _
                refine ⟨fun _ => exists_mem_append_singleton.mpr (.inr hc), fun _ => rfl⟩
      · rw [if_neg hs]
        have hval : ∀ b' : Bool,
            ((∃ g ∈ files ++ [f], classifyFile g = some (s, b')) ↔
              (∃ g ∈ files, classifyFile g = some (s, b'))) := by
          intro b'
          rw [exists_mem_append_singleton]
          constructor
          · rintro (h | h)
            · exact h
            · rw [hc] at h
              injection h with h
              injection h with h1 h2
              exact absurd h1.symm hs
          · exact .inl
        constructor
        · rw [ih1, exists_mem_append_singleton]
          constructor
          · exact .inl
          · rintro (h | ⟨b', hb'⟩)
            · exact h
            · rw [hc] at hb'
              injection hb' with hb'
              injection hb' with h1 h2
              exact absurd h1.symm hs
        · intro e he
          obtain ⟨hh, hj⟩ := ih2 e he
          exact ⟨by rw [hh]; exact (hval true).symm, by rw [hj]; exact (hval false).symm⟩

theorem exists_mem_or3 {α : Type} {l : List α} {p q r : α → Prop} :
    (∃ f ∈ l, p f ∨ q f ∨ r f) ↔
      ((∃ f ∈ l, p f) ∨ (∃ f ∈ l, q f) ∨ (∃ f ∈ l, r f)) := by
  constructor
  · rintro ⟨f, hf, hp | hq | hr⟩
    · exact .inl ⟨f, hf, hp⟩
    · exact .inr (.inl ⟨f, hf, hq⟩)
    · exact .inr (.inr ⟨f, hf, hr⟩)
  · rintro (⟨f, hf, h⟩ | ⟨f, hf, h⟩ | ⟨f, hf, h⟩)
    · exact ⟨f, hf, .inl h⟩
    · exact ⟨f, hf, .inr (.inl h)⟩
    · exact ⟨f, hf, .inr (.inr h)⟩

theorem exists_classify_html_iff (files : List String) (s : String) :
    (∃ g ∈ files, classifyFile g = some (s, true)) ↔
      (∃ g ∈ files, endsWithCI g ".html" = true ∧ stripSuffixCI g ".html" = s) := by
  refine exists_congr fun g => and_congr_right fun _ => classifyFile_html_iff

theorem exists_classify_json_iff (files : List String) (s : String) :
    (∃ g ∈ files, classifyFile g = some (s, false)) ↔
      (∃ g ∈ files, endsWithCI g ".json" = true ∧ stripSuffixCI g ".json" = s) := by
  refine exists_congr fun g => and_congr_right fun _ => classifyFile_json_iff

theorem filterNoHtml_iff (files : List String) :
    (scanPosts files).1.filter (fun pe => pe.2.htmlFile.isNone) ≠ [] ↔
      ∃ f ∈ files, endsWithCI f ".json" = true ∧
        ¬ ∃ g ∈ files, endsWithCI g ".html" = true ∧
            stripSuffixCI g ".html" = stripSuffixCI f ".json" := by
  constructor
  · intro hne
    obtain ⟨pe, hpe⟩ := List.exists_mem_of_ne_nil _ hne
    obtain ⟨hmem, hnone⟩ := List.mem_filter.mp hpe
    obtain ⟨s, e⟩ := pe
    have hl : lookupSlug (scanPosts files).1 s = some e :=
      (mem_iff_lookupSlug (scanPosts_keys_nodup files) s e).mp hmem
    have hkey := (scanPosts_lookup files s).1
    rw [hl] at hkey
    obtain ⟨f, hf, b, hfb⟩ := hkey.mp rfl
    have hhtml := ((scanPosts_lookup files s).2 e hl).1
    have hnot : ¬ ∃ g ∈ files, classifyFile g = some (s, true) := by
      intro hex
      have h2 := hhtml.mpr hex
      rw [Option.isNone_iff_eq_none.mp hnone] at h2
      cases h2
    cases b with
    | true => exact absurd ⟨f, hf, hfb⟩ hnot
    | false =>
      obtain ⟨hjson, hstrip⟩ := classifyFile_json_iff.mp hfb
      refine ⟨f, hf, hjson, ?_⟩
      rw [hstrip]
      rw [← exists_classify_html_iff]
      exact hnot
  · rintro ⟨f, hf, hjson, hnocp⟩
    have hfb : classifyFile f = some (stripSuffixCI f ".json", false) :=
      classifyFile_json_iff.mpr ⟨hjson, rfl⟩
    have hkey := (scanPosts_lookup files (stripSuffixCI f ".json")).1
    have hsome : (lookupSlug (scanPosts files).1 (stripSuffixCI f ".json")).isSome = true :=
      hkey.mpr ⟨f, hf, false, hfb⟩
    obtain ⟨e, hl⟩ := Option.isSome_iff_exists.mp hsome
    have hhtml := ((scanPosts_lookup files (stripSuffixCI f ".json")).2 e hl).1
    have henone : e.htmlFile = none := by
      rw [← Option.not_isSome_iff_eq_none]
      intro h2
      exact hnocp ((exists_classify_html_iff files _).mp (hhtml.mp h2))
    apply List.ne_nil_of_mem (a := (stripSuffixCI f ".json", e))
    refine List.mem_filter.mpr ⟨?_, ?_⟩
    · exact (mem_iff_lookupSlug (scanPosts_keys_nodup files) _ e).mpr hl
    · simp [henone]

theorem filterNoJson_iff (files : List String) :
    (scanPosts files).1.filter (fun pe => pe.2.jsonFile.isNone) ≠ [] ↔
      ∃ f ∈ files, endsWithCI f ".html" = true ∧
        ¬ ∃ g ∈ files, endsWithCI g ".json" = true ∧
            stripSuffixCI g ".json" = stripSuffixCI f ".html" := by
  constructor
  · intro hne
    obtain ⟨pe, hpe⟩ := List.exists_mem_of_ne_nil _ hne
    obtain ⟨hmem, hnone⟩ := List.mem_filter.mp hpe
    obtain ⟨s, e⟩ := pe
    have hl : lookupSlug (scanPosts files).1 s = some e :=
      (mem_iff_lookupSlug (scanPosts_keys_nodup files) s e).mp hmem
    have hkey := (scanPosts_lookup files s).1
    rw [hl] at hkey
    obtain ⟨f, hf, b, hfb⟩ := hkey.mp rfl
    have hjson := ((scanPosts_lookup files s).2 e hl).2
    have hnot : ¬ ∃ g ∈ files, classifyFile g = some (s, false) := by
      intro hex
      have h2 := hjson.mpr hex
      rw [Option.isNone_iff_eq_none.mp hnone] at h2
      cases h2
    cases b with
    | false => exact absurd ⟨f, hf, hfb⟩ hnot
    | true =>
      obtain ⟨hhtml, hstrip⟩ := classifyFile_html_iff.mp hfb
      refine ⟨f, hf, hhtml, ?_⟩
      rw [hstrip]
      rw [← exists_classify_json_iff]
      exact hnot
  · rintro ⟨f, hf, hhtml, hnocp⟩
    have hfb : classifyFile f = some (stripSuffixCI f ".html", true) :=
      classifyFile_html_iff.mpr ⟨hhtml, rfl⟩
    have hkey := (scanPosts_lookup files (stripSuffixCI f ".html")).1
    have hsome : (lookupSlug (scanPosts files).1 (stripSuffixCI f ".html")).isSome = true :=
      hkey.mpr ⟨f, hf, true, hfb⟩
    obtain ⟨e, hl⟩ := Option.isSome_iff_exists.mp hsome
    have hjson := ((scanPosts_lookup files (stripSuffixCI f ".html")).2 e hl).2
    have henone : e.jsonFile = none := by
      rw [← Option.not_isSome_iff_eq_none]
      intro h2
      exact hnocp ((exists_classify_json_iff files _).mp (hjson.mp h2))
    apply List.ne_nil_of_mem (a := (stripSuffixCI f ".html", e))
    refine List.mem_filter.mpr ⟨?_, ?_⟩
    · exact (mem_iff_lookupSlug (scanPosts_keys_nodup files) _ e).mpr hl
    · simp [henone]

theorem unrec_iff (files : List String) :
    (scanPosts files).2 ≠ [] ↔
      ∃ f ∈ files, endsWithCI f ".html" = false ∧ endsWithCI f ".json" = false := by
  rw [scanPosts_unrec]
  constructor
  · intro hne
    obtain ⟨f, hf⟩ := List.exists_mem_of_ne_nil _ hne
    obtain ⟨hmem, hnone⟩ := List.mem_filter.mp hf
    exact ⟨f, hmem, classifyFile_none_iff.mp (Option.isNone_iff_eq_none.mp hnone)⟩
  · rintro ⟨f, hf, hcond⟩
    apply List.ne_nil_of_mem (a := f)
    refine List.mem_filter.mpr ⟨hf, ?_⟩
    simp [classifyFile_none_iff.mpr hcond]

theorem readAllPosts_cond_iff (P : List (String × PairEntry)) (u : List String) :
    (!((P.filter (fun pe => pe.2.htmlFile.isNone)).map (·.1)).isEmpty
      || !((P.filter (fun pe => pe.2.jsonFile.isNone)).map (·.1)).isEmpty
      || !u.isEmpty) = true ↔
      (P.filter (fun pe => pe.2.htmlFile.isNone) ≠ [] ∨
       P.filter (fun pe => pe.2.jsonFile.isNone) ≠ [] ∨ u ≠ []) := by
  simp [List.isEmpty_iff, or_assoc]

theorem readAllPosts_none_iff (postDir : String) (files : List String)
    (meta : String → PostMetadata) :
    readAllPosts postDir files meta = none ↔
      ((scanPosts files).1.filter (fun pe => pe.2.htmlFile.isNone) ≠ [] ∨
       (scanPosts files).1.filter (fun pe => pe.2.jsonFile.isNone) ≠ [] ∨
       (scanPosts files).2 ≠ []) := by
  rw [← readAllPosts_cond_iff]
  unfold readAllPosts
  dsimp only
  split_ifs with h
  · simp [h]
  · simp [h]

theorem readAllPosts_some_iff (postDir : String) (files : List String)
    (meta : String → PostMetadata) (posts : List SitePost) :
    readAllPosts postDir files meta = some posts ↔
      ((scanPosts files).1.filter (fun pe => pe.2.htmlFile.isNone) = [] ∧
       (scanPosts files).1.filter (fun pe => pe.2.jsonFile.isNone) = [] ∧
       (scanPosts files).2 = [] ∧
       posts = jsSort postLE (assembledPosts postDir files meta)) := by
  have hcond := readAllPosts_cond_iff ((scanPosts files).1) ((scanPosts files).2)
  unfold readAllPosts
  dsimp only
  split_ifs with h
  · have hdisj := hcond.mp h
    constructor
    · intro h2
      cases h2
    · rintro ⟨h1, h2, h3, -⟩
      rcases hdisj with hd | hd | hd
      · exact absurd h1 hd
      · exact absurd h2 hd
      · exact absurd h3 hd
  · have hconj : ¬ _ := (not_iff_not.mpr hcond).mp h
    push_neg at hconj
    obtain ⟨h1, h2, h3⟩ := hconj
    simp only [Option.some.injEq]
    unfold assembledPosts
    constructor
    · intro h4
      exact ⟨h1, h2, h3, h4.symm⟩
    · rintro ⟨-, -, -, h4⟩
      exact h4.symm

/-! ## Claim C4: version compatibility rule -/

/-- C4: for all generator and manifest version strings of the form
`major.minor.revision`, `checkManifestVersion` accepts iff the majors
match, the generator's minor is `≥` the manifest's, and at equal minors
the generator's revision is `≥` the manifest's; on rejection the logged
message names both versions. In particular generator `1.2.0` accepts
`1.0.0`–`1.2.0` and rejects `1.3.0`, `2.0.0`, `0.9.0`. -/
theorem c4_checkManifestVersion_semver_rule :
    (∀ (g m : String) (gM gN gR mM mN mR : Nat),
      parseVersion g = some (gM, gN, gR) →
      parseVersion m = some (mM, mN, mR) →
      ((checkManifestVersion g m = some (true, [])) ↔
        (gM = mM ∧ mN ≤ gN ∧ (gN = mN → mR ≤ gR))) ∧
      (¬(gM = mM ∧ mN ≤ gN ∧ (gN = mN → mR ≤ gR)) →
        checkManifestVersion g m = some (false, [versionErrorMsg m g])))
    ∧ checkManifestVersion "1.2.0" "1.0.0" = some (true, [])
    ∧ checkManifestVersion "1.2.0" "1.1.7" = some (true, [])
    ∧ checkManifestVersion "1.2.0" "1.2.0" = some (true, [])
    ∧ checkManifestVersion "1.2.0" "1.3.0" = some (false, [versionErrorMsg "1.3.0" "1.2.0"])
    ∧ checkManifestVersion "1.2.0" "2.0.0" = some (false, [versionErrorMsg "2.0.0" "1.2.0"])
    ∧ checkManifestVersion "1.2.0" "0.9.0" = some (false, [versionErrorMsg "0.9.0" "1.2.0"]) := by
  refine ⟨?_, by decide, by decide, by decide, by decide, by decide, by decide⟩
  intro g m gM gN gR mM mN mR hg hm
  simp only [checkManifestVersion, hg, hm]
  split_ifs with hc
  · constructor
    · constructor
      · intro h
        simp at h
      · intro hacc
        exact absurd hacc (by omega)
    · intro _
      rfl
  · constructor
    · constructor
      · intro _
        omega
      · intro _
        rfl
    · intro hnacc
      exact absurd (show gM = mM ∧ mN ≤ gN ∧ (gN = mN → mR ≤ gR) by omega) hnacc

/-- Witness for C4: instantiated at generator `1.2.0`, manifest `1.1.7`. -/
theorem c4_witness :
    (checkManifestVersion "1.2.0" "1.1.7" = some (true, [])) ↔
      (1 = 1 ∧ 1 ≤ 2 ∧ (2 = 1 → 7 ≤ 0)) :=
  (c4_checkManifestVersion_semver_rule.1 "1.2.0" "1.1.7" 1 2 0 1 1 7
    (by decide) (by decide)).1

/-! ## Claim C7: containment guaranteed by a passing sanity check -/

/-- C7: whenever `manifestSanityChecks` returns `true`, under pure lexical
resolution the output directory is a strict descendant of the project
root, and each of the five other configured paths is a strict descendant
of the project root and is neither the resolved output directory nor a
descendant of it; moreover the two spec examples (a `postInputDir` of
`../outside`; a `staticAssetsInputDir` of `dist/raw` with `outputDir`
`dist`) are rejected. -/
theorem c7_sanityChecks_containment :
    (∀ (baseDir : String) (manifest : SiteManifest),
      (manifestSanityChecks baseDir manifest).1 = true →
      strictDescendant (resolveRel (resolveRel [] baseDir) manifest.outputDir)
        (resolveRel [] baseDir) ∧
      ∀ rel ∈ [manifest.postSettings.postInputDir, manifest.postSettings.postTemplate,
          manifest.staticAssetsInputDir, manifest.partialTemplatesDir,
          manifest.additionalPageTemplatesDir],
        strictDescendant (resolveRel (resolveRel [] baseDir) rel) (resolveRel [] baseDir) ∧
        ¬ (resolveRel (resolveRel [] baseDir) manifest.outputDir <+:
            resolveRel (resolveRel [] baseDir) rel))
    ∧ (manifestSanityChecks "/proj" manifestC7a).1 = false
    ∧ (manifestSanityChecks "/proj" manifestC7b).1 = false := by
  refine ⟨?_, by decide, by decide⟩
  intro baseDir manifest h
  have hgbase : ∀ s ∈ resolveRel [] baseDir, goodSeg s :=
    resolveRel_good [] baseDir (by simp)
  have hgout : ∀ s ∈ resolveRel (resolveRel [] baseDir) manifest.outputDir, goodSeg s :=
    resolveRel_good _ _ hgbase
  simp only [manifestSanityChecks, pathsToCheck, List.foldl_cons, List.foldl_nil] at h
  obtain ⟨h, hin5⟩ := andAssign_true h
  obtain ⟨h, hout5⟩ := andAssign_true h
  obtain ⟨h, hin4⟩ := andAssign_true h
  obtain ⟨h, hout4⟩ := andAssign_true h
  obtain ⟨h, hin3⟩ := andAssign_true h
  obtain ⟨h, hout3⟩ := andAssign_true h
  obtain ⟨h, hin2⟩ := andAssign_true h
  obtain ⟨h, hout2⟩ := andAssign_true h
  obtain ⟨h, hin1⟩ := andAssign_true h
  obtain ⟨h, hout1⟩ := andAssign_true h
  obtain ⟨-, hout0⟩ := andAssign_true h
  refine ⟨startsWith_base_strict _ _ hgbase hgout (checkOutside_true hout0), ?_⟩
  intro rel hrel
  have hinside : ∀ relp : String,
      jsStartsWith (renderAbs (resolveRel (resolveRel [] baseDir) relp))
        (renderAbs (resolveRel (resolveRel [] baseDir) manifest.outputDir)) = false →
      ¬ (resolveRel (resolveRel [] baseDir) manifest.outputDir <+:
          resolveRel (resolveRel [] baseDir) relp) := by
    intro relp hfalse hp
    rw [prefix_implies_startsWith _ _ hp] at hfalse
    exact absurd hfalse (by simp)
  have hgood : ∀ relp : String, ∀ s ∈ resolveRel (resolveRel [] baseDir) relp, goodSeg s :=
    fun relp => resolveRel_good _ _ hgbase
  simp only [List.mem_cons, List.not_mem_nil, or_false] at hrel
  rcases hrel with rfl | rfl | rfl | rfl | rfl
  · exact ⟨startsWith_base_strict _ _ hgbase (hgood _) (checkOutside_true hout1),
      hinside _ (checkInside_true hin1)⟩
  · exact ⟨startsWith_base_strict _ _ hgbase (hgood _) (checkOutside_true hout2),
      hinside _ (checkInside_true hin2)⟩
  · exact ⟨startsWith_base_strict _ _ hgbase (hgood _) (checkOutside_true hout3),
      hinside _ (checkInside_true hin3)⟩
  · exact ⟨startsWith_base_strict _ _ hgbase (hgood _) (checkOutside_true hout4),
      hinside _ (checkInside_true hin4)⟩
  · exact ⟨startsWith_base_strict _ _ hgbase (hgood _) (checkOutside_true hout5),
      hinside _ (checkInside_true hin5)⟩

/-- Witness for C7: the default manifest rooted at `/proj` passes the
sanity checks, so all its resolved paths satisfy the containment
conditions. -/
theorem c7_witness :
    strictDescendant (resolveRel (resolveRel [] "/proj") (defaultManifest "1.0.0").outputDir)
      (resolveRel [] "/proj") ∧
    ∀ rel ∈ [(defaultManifest "1.0.0").postSettings.postInputDir,
        (defaultManifest "1.0.0").postSettings.postTemplate,
        (defaultManifest "1.0.0").staticAssetsInputDir,
        (defaultManifest "1.0.0").partialTemplatesDir,
        (defaultManifest "1.0.0").additionalPageTemplatesDir],
      strictDescendant (resolveRel (resolveRel [] "/proj") rel) (resolveRel [] "/proj") ∧
      ¬ (resolveRel (resolveRel [] "/proj") (defaultManifest "1.0.0").outputDir <+:
          resolveRel (resolveRel [] "/proj") rel) :=
  c7_sanityChecks_containment.1 "/proj" (defaultManifest "1.0.0") (by decide)

/-! ## Claim C5: pairing validation, exactly and with zero false positives -/

/-- C5: `readAllPosts` reports failure exactly when the scanned file set
contains a metadata file with no matching content file, a content file
with no matching metadata file, or a file with neither extension
(case-insensitively); when every file has an exact counterpart differing
only in extension no error is reported, and the result carries exactly
one `SitePost` per matched pair: its slugs are exactly the distinct
stripped content-file paths. -/
theorem c5_readAllPosts_pairing :
    ∀ (postDir : String) (files : List String) (meta : String → PostMetadata),
      (readAllPosts postDir files meta = none ↔
        ∃ f ∈ files,
          (endsWithCI f ".json" = true ∧
            ¬ ∃ g ∈ files, endsWithCI g ".html" = true ∧
                stripSuffixCI g ".html" = stripSuffixCI f ".json") ∨
          (endsWithCI f ".html" = true ∧
            ¬ ∃ g ∈ files, endsWithCI g ".json" = true ∧
                stripSuffixCI g ".json" = stripSuffixCI f ".html") ∨
          (endsWithCI f ".html" = false ∧ endsWithCI f ".json" = false)) ∧
      ∀ posts, readAllPosts postDir files meta = some posts →
        (posts.map SitePost.slug).Nodup ∧
        ∀ s, s ∈ posts.map SitePost.slug ↔
          ∃ f ∈ files, endsWithCI f ".html" = true ∧ stripSuffixCI f ".html" = s := by
  intro postDir files meta
  constructor
  · rw [readAllPosts_none_iff, exists_mem_or3, filterNoHtml_iff, filterNoJson_iff, unrec_iff]
  · intro posts hsome
    obtain ⟨h1, h2, h3, hpost⟩ := (readAllPosts_some_iff _ _ _ _).mp hsome
    have hslugmap : (assembledPosts postDir files meta).map SitePost.slug ~
        (scanPosts files).1.map Prod.fst := by
      unfold assembledPosts
      rw [List.map_map, show (SitePost.slug ∘ fun pe : String × PairEntry =>
        mkPost postDir meta pe.1 pe.2) = Prod.fst from rfl]
      exact (jsEntries_perm (scanPosts files).1).map Prod.fst
    have hperm : posts.map SitePost.slug ~ (scanPosts files).1.map Prod.fst := by
      rw [hpost]
      exact ((jsSort_perm postLE (assembledPosts postDir files meta)).map
        SitePost.slug).trans hslugmap
    constructor
    · exact hperm.nodup_iff.mpr (scanPosts_keys_nodup files)
    · intro s
      rw [hperm.mem_iff]
      constructor
      · intro hs
        obtain ⟨⟨s', e⟩, hpe, rfl⟩ := List.mem_map.mp hs
        have hl := (mem_iff_lookupSlug (scanPosts_keys_nodup files) _ e).mp hpe
        have hnotnone := List.filter_eq_nil_iff.mp h1 (s', e) hpe
        have hissome : e.htmlFile.isSome = true := by
          cases hh : e.htmlFile with
          | none => exact absurd (by simp [hh]) hnotnone
          | some v => rfl
        exact (exists_classify_html_iff files _).mp
          (((scanPosts_lookup files _).2 e hl).1.mp hissome)
      · rintro ⟨f, hf, hhtml, hstrip⟩
        have hfb : classifyFile f = some (s, true) := classifyFile_html_iff.mpr ⟨hhtml, hstrip⟩
        have hsome2 := ((scanPosts_lookup files s).1).mpr ⟨f, hf, true, hfb⟩
        obtain ⟨e, hl⟩ := Option.isSome_iff_exists.mp hsome2
        have hmem := (mem_iff_lookupSlug (scanPosts_keys_nodup files) s e).mpr hl
        exact List.mem_map.mpr ⟨(s, e), hmem, rfl⟩

/-- Witness for C5: for the file set `x.html`, `x.json` (every file has an
exact counterpart) validation passes and the single post's slug is `x`. -/
theorem c5_witness :
    (([⟨"x", "posts/x.html", "posts/x.json", ⟨"t", 0⟩⟩] : List SitePost).map SitePost.slug).Nodup ∧
    ("x" ∈ ([⟨"x", "posts/x.html", "posts/x.json", ⟨"t", 0⟩⟩] : List SitePost).map SitePost.slug ↔
      ∃ f ∈ ["x.html", "x.json"], endsWithCI f ".html" = true ∧ stripSuffixCI f ".html" = "x") :=
  have h := (c5_readAllPosts_pairing "posts" ["x.html", "x.json"] metaZero).2
    [⟨"x", "posts/x.html", "posts/x.json", ⟨"t", 0⟩⟩] (by decide)
  ⟨h.1, h.2 "x"⟩

/-! ## Claim C6: descending stable order of the post list -/

/-- C6 (refuting evaluation): two equal-date posts whose slugs are the
array-index strings `"2"` and `"1"`, discovered in that order —
`Object.entries` enumerates the record numerically, so the pre-sort order
is `1, 2` and the stable sort keeps it: the tie does NOT come out in
discovery order (`2, 1`). -/
theorem c6_counterexample :
    readAllPosts "posts/" ["2.html", "2.json", "1.html", "1.json"] metaZero =
      some [⟨"1", "posts/1.html", "posts/1.json", ⟨"t", 0⟩⟩,
            ⟨"2", "posts/2.html", "posts/2.json", ⟨"t", 0⟩⟩] := by
  decide

/-- C6 (amended): every successful `readAllPosts` result is sorted by
`pubDate` descending, and posts with equal `pubDate` retain the record's
`Object.entries` enumeration order (the sort is stable): array-index
slugs ascending numerically first, then the others in discovery
(first-insertion) order. Whenever no slug is an array-index string, that
enumeration order IS the discovery order. The spec's three-date example
comes out newest-first. -/
theorem c6_readAllPosts_sorted :
    (∀ (postDir : String) (files : List String) (meta : String → PostMetadata)
        (posts : List SitePost), readAllPosts postDir files meta = some posts →
      posts.Pairwise (fun a b => b.metadata.pubDate ≤ a.metadata.pubDate) ∧
      (∀ t : Int, posts.filter (fun p => decide (p.metadata.pubDate = t)) =
        (assembledPosts postDir files meta).filter
          (fun p => decide (p.metadata.pubDate = t))) ∧
      ((∀ pe ∈ (scanPosts files).1, isArrayIndex pe.1 = false) →
        assembledPosts postDir files meta =
          (scanPosts files).1.map (fun pe => mkPost postDir meta pe.1 pe.2)))
    ∧ (readAllPosts "posts" ["p1.html", "p1.json", "p2.html", "p2.json", "p3.html", "p3.json"]
        metaExample).map (fun l => l.map SitePost.slug) = some ["p2", "p3", "p1"] := by
  refine ⟨?_, by decide⟩
  intro postDir files meta posts hsome
  obtain ⟨-, -, -, hpost⟩ := (readAllPosts_some_iff _ _ _ _).mp hsome
  subst hpost
  refine ⟨?_, ?_, ?_⟩
  · exact (jsSort_pairwise postLE_trans postLE_total _).imp fun hab => of_decide_eq_true hab
  · intro t
    apply jsSort_filter postLE_trans postLE_total
    intro a b ha hb
    have h1 := of_decide_eq_true ha
    have h2 := of_decide_eq_true hb
    exact decide_eq_true (show b.metadata.pubDate ≤ a.metadata.pubDate by omega)
  · intro hni
    unfold assembledPosts jsEntries
    rw [List.filter_eq_nil_iff.mpr (fun pe hpe => by simp [hni pe hpe]),
      List.filter_eq_self.mpr (fun pe hpe => by simp [hni pe hpe])]
    rfl

/-- Witness for C6: the spec's three-date example — sortedness, stability
at the 2020-01-01 timestamp, and (as no slug there is an array-index
string) the enumeration order coinciding with discovery order. -/
theorem c6_witness :
    (([⟨"p2", "posts/p2.html", "posts/p2.json", ⟨"second", 1622505600000⟩⟩,
       ⟨"p3", "posts/p3.html", "posts/p3.json", ⟨"third", 1590969600000⟩⟩,
       ⟨"p1", "posts/p1.html", "posts/p1.json", ⟨"first", 1577836800000⟩⟩] :
        List SitePost).Pairwise (fun a b => b.metadata.pubDate ≤ a.metadata.pubDate)) ∧
    ([⟨"p2", "posts/p2.html", "posts/p2.json", ⟨"second", 1622505600000⟩⟩,
      ⟨"p3", "posts/p3.html", "posts/p3.json", ⟨"third", 1590969600000⟩⟩,
      ⟨"p1", "posts/p1.html", "posts/p1.json", ⟨"first", 1577836800000⟩⟩] :
        List SitePost).filter (fun p => decide (p.metadata.pubDate = 1577836800000)) =
      (assembledPosts "posts" ["p1.html", "p1.json", "p2.html", "p2.json", "p3.html", "p3.json"]
        metaExample).filter (fun p => decide (p.metadata.pubDate = 1577836800000)) ∧
    assembledPosts "posts" ["p1.html", "p1.json", "p2.html", "p2.json", "p3.html", "p3.json"]
        metaExample =
      (scanPosts ["p1.html", "p1.json", "p2.html", "p2.json", "p3.html", "p3.json"]).1.map
        (fun pe => mkPost "posts" metaExample pe.1 pe.2) :=
  have h := c6_readAllPosts_sorted.1 "posts"
    ["p1.html", "p1.json", "p2.html", "p2.json", "p3.html", "p3.json"] metaExample
    [⟨"p2", "posts/p2.html", "posts/p2.json", ⟨"second", 1622505600000⟩⟩,
     ⟨"p3", "posts/p3.html", "posts/p3.json", ⟨"third", 1590969600000⟩⟩,
     ⟨"p1", "posts/p1.html", "posts/p1.json", ⟨"first", 1577836800000⟩⟩] (by decide)
  ⟨h.1, h.2.1 1577836800000, h.2.2 (by decide)⟩

/-! ## Claim C3: grouping key of post files -/

/-- C3 (refuting evaluation): a content file `a/foo.html` and a metadata
file `b/foo.json` in different subdirectories share the basename `foo`,
but `readAllPosts` does NOT treat them as one post — it fails with both
reported as orphans, because the grouping key is the full relative path
with the extension stripped, not the basename. -/
theorem c3_counterexample :
    readAllPosts "posts" ["a/foo.html", "b/foo.json"] metaZero = none := by
  decide

/-- C3 (amended): files are grouped by their full path relative to the
post input directory minus the (case-insensitive) extension, so a content
and a metadata file pair only when they lie in the same subdirectory;
then the shared relative path without extension — subdirectory included —
is the slug. Files with equal basenames in different subdirectories are
not grouped: each is an orphan and validation fails. -/
theorem c3_slug_includes_directory :
    ∀ (postDir base : String) (meta : String → PostMetadata),
      readAllPosts postDir [("a/" ++ base) ++ ".html", ("b/" ++ base) ++ ".json"] meta = none ∧
      readAllPosts postDir [("a/" ++ base) ++ ".html", ("a/" ++ base) ++ ".json"] meta =
        some [{ slug := "a/" ++ base,
                pathToHtml := pathJoin postDir (("a/" ++ base) ++ ".html"),
                pathToJson := pathJoin postDir (("a/" ++ base) ++ ".json"),
                metadata := meta (pathJoin postDir (("a/" ++ base) ++ ".json")) }] := by
  intro postDir base meta
  have hne : ("a/" ++ base) ≠ ("b/" ++ base) := by
    intro h
    have h2 := congrArg String.data h
    simp [String.data_append] at h2
  have h1 : classifyFile (("a/" ++ base) ++ ".html") = some ("a/" ++ base, true) :=
    classifyFile_html_iff.mpr ⟨endsWithCI_append_self _ _, stripSuffixCI_append _ _⟩
  have h2 : classifyFile (("b/" ++ base) ++ ".json") = some ("b/" ++ base, false) :=
    classifyFile_json_iff.mpr ⟨endsWithCI_append_self _ _, stripSuffixCI_append _ _⟩
  have h3 : classifyFile (("a/" ++ base) ++ ".json") = some ("a/" ++ base, false) :=
    classifyFile_json_iff.mpr ⟨endsWithCI_append_self _ _, stripSuffixCI_append _ _⟩
  constructor
  · have hscan : scanPosts [("a/" ++ base) ++ ".html", ("b/" ++ base) ++ ".json"] =
        ([("a/" ++ base, ⟨some (("a/" ++ base) ++ ".html"), none⟩),
          ("b/" ++ base, ⟨none, some (("b/" ++ base) ++ ".json")⟩)], []) := by
      simp [scanPosts, h1, h2, insertPost, setEntry, hne]
    rw [readAllPosts_none_iff, hscan]
    simp
  · have hscan : scanPosts [("a/" ++ base) ++ ".html", ("a/" ++ base) ++ ".json"] =
        ([("a/" ++ base,
            ⟨some (("a/" ++ base) ++ ".html"), some (("a/" ++ base) ++ ".json")⟩)], []) := by
      simp [scanPosts, h1, h3, insertPost, setEntry]
    rw [readAllPosts_some_iff, hscan]
    refine ⟨by simp, by simp, rfl, ?_⟩
    unfold assembledPosts
    rw [hscan, jsEntries_singleton_not_index (isArrayIndex_a_slash base)]
    simp [jsSort, insertDesc, mkPost]

/-! ## Claim C1: exhaustiveness of the path-guard validation -/

/-- C1 (refuting evaluation): with two escaping paths, `manifestSanityChecks`
returns `false` but logs only the error for the first failing path (the
post input directory); the static asset directory's own containment check —
which would also fail, as the second conjunct shows — is never executed,
because `isValid &&= check(...)` stops evaluating its right-hand side once
`isValid` is `false`. The spec requires all six checks to run and every
failing path to be logged. -/
theorem c1_sanityChecks_shortCircuit :
    manifestSanityChecks "/proj" manifestC1 =
      (false, ["❌ The post input directory (/out1) is outside of the project directory"])
    ∧ (checkIfOutsideOfProjectDir "/proj/" "/out2" "static asset directory").1 = false := by
  constructor
  · decide
  · decide

/-! ## Lemmas about the recursive directory walker -/

theorem allFilesEntries_eq_flatMap (es : List (String × FNode)) :
    allFilesEntries es =
      es.flatMap (fun e => (allFiles e.2).map (fun pc => (e.1 :: pc.1, pc.2))) := by
  induction es with
  | nil => rfl
  | cons e rest ih => rw [allFilesEntries, ih, List.flatMap_cons]

theorem flatMap_ext {α β : Type} {l : List α} {f g : α → List β}
    (h : ∀ a ∈ l, f a = g a) : l.flatMap f ~ l.flatMap g := by
  induction l with
  | nil => rfl
  | cons a rest ih =>
    rw [List.flatMap_cons, List.flatMap_cons,
      h a (List.mem_cons_self a rest)]
    exact (ih (fun a' ha' => h a' (List.mem_cons_of_mem a ha'))).append_left _

theorem readdirLoop_perm :
    ∀ queue : List (List String × FNode),
      readdirLoop queue ~
        queue.flatMap (fun q => (allFiles q.2).map (fun pc => (q.1 ++ pc.1, pc.2))) := by
  intro queue
  induction queue using readdirLoop.induct with
  | case1 =>
    rw [readdirLoop]
    rfl
  | case2 p c rest ih =>
    rw [readdirLoop, List.flatMap_cons]
    simp only [allFiles, List.map_cons, List.map_nil, List.append_nil]
    exact ih.cons (p, c)
  | case3 p es rest ih =>
    rw [readdirLoop]
    refine ih.trans ?_
    rw [List.flatMap_append, List.flatMap_cons]
    refine List.Perm.append_right _ ?_
    refine ((List.reverse_perm _).flatMap_right _).trans ?_
    rw [List.flatMap_map]
    rw [show allFiles (FNode.dir es) = allFilesEntries es from rfl,
      allFilesEntries_eq_flatMap, List.map_flatMap]
    refine flatMap_ext fun a _ => ?_
    dsimp only
    rw [List.map_map]
    apply List.map_congr_left
    intro q _
    simp [List.append_assoc]

theorem walk_perm (es : List (String × FNode)) :
    readdirLoop ((es.map (fun e => ([e.1], e.2))).reverse) ~ allFilesEntries es := by
  refine (readdirLoop_perm _).trans ?_
  refine ((List.reverse_perm _).flatMap_right _).trans ?_
  rw [List.flatMap_map, allFilesEntries_eq_flatMap]
  refine flatMap_ext fun a _ => ?_
  dsimp only
  apply List.map_congr_left
  intro q _
  simp

theorem allFilesEntries_shape :
    ∀ (es : List (String × FNode)) (pc : List String × String), pc ∈ allFilesEntries es →
      ∃ e ∈ es, ∃ q ∈ allFiles e.2, pc = (e.1 :: q.1, q.2) := by
  intro es
  induction es with
  | nil =>
    intro pc hpc
    simp [allFilesEntries] at hpc
  | cons e rest ih =>
    intro pc hpc
    rw [allFilesEntries] at hpc
    rcases List.mem_append.mp hpc with h | h
    · obtain ⟨q, hq, rfl⟩ := List.mem_map.mp h
      exact ⟨e, List.mem_cons_self e rest, q, hq, rfl⟩
    · obtain ⟨e', he', q, hq, rfl⟩ := ih pc h
      exact ⟨e', List.mem_cons_of_mem e he', q, hq, rfl⟩

theorem mem_entriesSize {es : List (String × FNode)} {e : String × FNode} (h : e ∈ es) :
    nodeSize e.2 ≤ entriesSize es := by
  induction es with
  | nil => cases h
  | cons e' rest ih =>
    rw [entriesSize]
    rcases List.mem_cons.mp h with rfl | h'
    · omega
    · have := ih h'
      omega

theorem allFilesEntries_nodup_good (es : List (String × FNode))
    (hnd : (es.map Prod.fst).Nodup)
    (hgood : ∀ e ∈ es, goodSeg e.1)
    (hrec : ∀ e ∈ es, ((allFiles e.2).map Prod.fst).Nodup ∧
      (∀ pc ∈ allFiles e.2, ∀ seg ∈ pc.1, goodSeg seg)) :
    ((allFilesEntries es).map Prod.fst).Nodup ∧
    (∀ pc ∈ allFilesEntries es, ∀ seg ∈ pc.1, goodSeg seg) := by
  induction es with
  | nil => simp [allFilesEntries]
  | cons e rest ih =>
    simp only [List.map_cons, List.nodup_cons] at hnd
    obtain ⟨hne, hnd'⟩ := hnd
    obtain ⟨ihn, ihg⟩ := ih hnd'
      (fun e' he' => hgood e' (List.mem_cons_of_mem e he'))
      (fun e' he' => hrec e' (List.mem_cons_of_mem e he'))
    constructor
    · rw [allFilesEntries, List.map_append, List.map_map]
      have hleft : (List.map (Prod.fst ∘ fun pc => (e.1 :: pc.1, pc.2)) (allFiles e.2)) =
          ((allFiles e.2).map Prod.fst).map (fun l => e.1 :: l) := by
        rw [List.map_map]
        rfl
      rw [hleft]
      apply List.Nodup.append
      · exact (hrec e (List.mem_cons_self e rest)).1.map
          (fun l₁ l₂ h => by injection h)
      · exact ihn
      · intro a ha hb
        obtain ⟨l, -, rfl⟩ := List.mem_map.mp ha
        obtain ⟨pc, hpc, hfst⟩ := List.mem_map.mp hb
        obtain ⟨e', he', q, -, rfl⟩ := allFilesEntries_shape rest pc hpc
        have hhead : e.1 = e'.1 := by
          have := hfst
          simp only at this
          injection this.symm
        exact hne (hhead ▸ List.mem_map_of_mem Prod.fst he')
    · intro pc hpc
      rw [allFilesEntries] at hpc
      rcases List.mem_append.mp hpc with h | h
      · obtain ⟨q, hq, rfl⟩ := List.mem_map.mp h
        intro seg hseg
        rcases List.mem_cons.mp hseg with rfl | hseg'
        · exact hgood e (List.mem_cons_self e rest)
        · exact (hrec e (List.mem_cons_self e rest)).2 q hq seg hseg'
      · exact ihg pc h

theorem allFiles_nodup_good (n : FNode) (hwf : WfNode n) :
    ((allFiles n).map Prod.fst).Nodup ∧
    (∀ pc ∈ allFiles n, ∀ seg ∈ pc.1, goodSeg seg) := by
  generalize hsize : nodeSize n = N
  induction N using Nat.strong_induction_on generalizing n with
  | _ N ih =>
    cases hwf with
    | file content =>
      constructor
      · simp [allFiles]
      · intro pc hpc
        rw [allFiles] at hpc
        rcases List.mem_singleton.mp hpc with rfl
        intro seg hseg
        cases hseg
    | dir es hnd hgood hchild =>
      have hrec : ∀ e ∈ es, ((allFiles e.2).map Prod.fst).Nodup ∧
          (∀ pc ∈ allFiles e.2, ∀ seg ∈ pc.1, goodSeg seg) := by
        intro e he
        refine ih (nodeSize e.2) ?_ e.2 (hchild e he) rfl
        have h1 := mem_entriesSize he
        rw [← hsize, nodeSize]
        omega
      exact allFilesEntries_nodup_good es hnd hgood hrec

/-! ## Lemmas about slash squashing and the `.hbs` suffix check -/

theorem squash_no_slash : ∀ {u : List Char}, '/' ∉ u → squashSlashes u = u := by
  intro u
  induction u with
  | nil => intro _; rfl
  | cons c rest ih =>
    intro h
    rw [squashSlashes,
      if_neg (fun hc => h (by rw [← hc]; exact List.mem_cons_self c rest)),
      ih (fun hm => h (List.mem_cons_of_mem c hm))]

theorem squash_append_slash_ne_nil : ∀ u : List Char, squashSlashes (u ++ ['/']) ≠ [] := by
  intro u
  induction u with
  | nil =>
    rw [List.nil_append, squashSlashes, if_pos rfl,
      show squashSlashes [] = ([] : List Char) from rfl]
    simp
  | cons c rest ih =>
    rw [List.cons_append, squashSlashes]
    split_ifs <;> simp_all

theorem squash_boundary :
    ∀ {ys : List Char}, ys.head? ≠ some '/' → squashSlashes ys = ys →
      ∀ xs, squashSlashes (xs ++ '/' :: ys) = squashSlashes (xs ++ ['/']) ++ ys := by
  intro ys h1 h2 xs
  induction xs with
  | nil =>
    rw [List.nil_append, List.nil_append, squashSlashes, if_pos rfl, h2, if_neg h1]
    rw [show squashSlashes ['/'] = ['/'] from by rw [squashSlashes]; simp [squashSlashes]]
    rfl
  | cons c xs' ih =>
    by_cases hc : c = '/'
    · subst hc
      rw [List.cons_append, squashSlashes, if_pos rfl, ih]
      rw [List.cons_append, squashSlashes, if_pos rfl]
      have hT := squash_append_slash_ne_nil xs'
      cases hTd : squashSlashes (xs' ++ ['/']) with
      | nil => exact absurd hTd hT
      | cons t0 ts =>
        rw [List.cons_append, List.head?_cons, List.head?_cons]
        by_cases ht0 : t0 = '/'
        · subst ht0
          rw [if_pos rfl, if_pos rfl, List.cons_append]
        · rw [if_neg (by simpa using ht0), if_neg (by simpa using ht0), List.cons_append,
            List.cons_append]
    · rw [List.cons_append, squashSlashes, if_neg hc, ih, List.cons_append, squashSlashes,
        if_neg hc, List.cons_append]

theorem squash_append_slash_no_slash : ∀ {u : List Char}, '/' ∉ u →
    squashSlashes (u ++ ['/']) = u ++ ['/'] := by
  intro u
  induction u with
  | nil =>
    intro _
    rw [List.nil_append, squashSlashes, if_pos rfl]
    simp [squashSlashes]
  | cons c rest ih =>
    intro h
    rw [List.cons_append, squashSlashes,
      if_neg (fun hc => h (by rw [← hc]; exact List.mem_cons_self c rest)),
      ih (fun hm => h (List.mem_cons_of_mem c hm))]

theorem squash_append_slash_getLast :
    ∀ u : List Char, (squashSlashes (u ++ ['/'])).getLast? = some '/' := by
  intro u
  induction u with
  | nil =>
    rw [List.nil_append, squashSlashes, if_pos rfl]
    simp [squashSlashes]
  | cons c rest ih =>
    rw [List.cons_append, squashSlashes]
    split_ifs with h1 h2
    · exact ih
    · rw [List.getLast?_cons, ih]
      cases hTd : squashSlashes (rest ++ ['/']) with
      | nil => exact absurd hTd (squash_append_slash_ne_nil rest)
      | cons t0 ts => simp [hTd] at ih ⊢
    · rw [List.getLast?_cons, ih]
      cases hTd : squashSlashes (rest ++ ['/']) with
      | nil => exact absurd hTd (squash_append_slash_ne_nil rest)
      | cons t0 ts => simp [hTd] at ih ⊢

theorem pathString_head_not_slash :
    ∀ {p : List String}, p ≠ [] → (∀ s ∈ p, goodSeg s) →
      (pathString p).data.head? ≠ some '/' := by
  intro p hp hg
  cases p with
  | nil => exact absurd rfl hp
  | cons x rest =>
    have hx := hg x (List.mem_cons_self x rest)
    have hxd : x.data ≠ [] := goodSeg_data_ne_nil hx
    cases hd : x.data with
    | nil => exact absurd hd hxd
    | cons c cs =>
      have hcx : c ∈ x.data := by rw [hd]; exact List.mem_cons_self c cs
      have hc : c ≠ '/' := fun h => hx.2 (h ▸ hcx)
      cases rest with
      | nil =>
        rw [show pathString [x] = x from rfl, hd]
        simpa using fun h => hc h
      | cons y rest' =>
        rw [show pathString (x :: y :: rest') = x ++ "/" ++ pathString (y :: rest') from rfl]
        rw [String.data_append, String.data_append, hd]
        simpa using fun h => hc h

theorem pathString_squash :
    ∀ {p : List String}, (∀ s ∈ p, goodSeg s) →
      squashSlashes (pathString p).data = (pathString p).data := by
  intro p
  induction p with
  | nil => intro _; rfl
  | cons x rest ih =>
    intro hg
    have hx := hg x (List.mem_cons_self x rest)
    cases rest with
    | nil => exact squash_no_slash hx.2
    | cons y rest' =>
      rw [show pathString (x :: y :: rest') = x ++ "/" ++ pathString (y :: rest') from rfl]
      rw [String.data_append, String.data_append,
        show ("/" : String).data = ['/'] from rfl, List.append_assoc, List.singleton_append]
      rw [squash_boundary
        (pathString_head_not_slash (by simp) (fun s hs => hg s (List.mem_cons_of_mem x hs)))
        (ih (fun s hs => hg s (List.mem_cons_of_mem x hs)))]
      rw [squash_append_slash_no_slash hx.2, List.append_assoc, List.singleton_append]

theorem pathJoin_data_eq {a : String} {p : List String} (hp : p ≠ [])
    (hg : ∀ s ∈ p, goodSeg s) :
    (pathJoin a (pathString p)).data =
      squashSlashes (a.data ++ ['/']) ++ (pathString p).data := by
  show squashSlashes (a.data ++ '/' :: (pathString p).data) = _
  exact squash_boundary (pathString_head_not_slash hp hg) (pathString_squash hg) a.data

theorem suffix_append_iff_of_le {α : Type} {ext A sd : List α}
    (h : ext.length ≤ sd.length) : ext <:+ (A ++ sd) ↔ ext <:+ sd := by
  constructor
  · rintro ⟨t, ht⟩
    have hA : A <+: t := by
      refine List.prefix_of_prefix_length_le (List.prefix_append A sd) ?_ ?_
      · rw [← ht]
        exact List.prefix_append t ext
      · have := congrArg List.length ht
        simp only [List.length_append] at this
        omega
    obtain ⟨t', rfl⟩ := hA
    rw [List.append_assoc] at ht
    have := List.append_cancel_left ht
    exact ⟨t', this⟩
  · rintro ⟨t, rfl⟩
    exact ⟨A ++ t, by rw [List.append_assoc]⟩

theorem suffix_append_false {ext A sd : List Char} (hA : A.getLast? = some '/')
    (hlen : sd.length < ext.length) (hns : '/' ∉ ext) : ¬ ext <:+ (A ++ sd) := by
  rintro ⟨t, ht⟩
  obtain ⟨A', rfl⟩ := List.getLast?_eq_some_iff.mp hA
  rw [List.append_assoc, List.singleton_append] at ht
  have h1 : ('/' :: sd) <:+ (t ++ ext) := ⟨A', ht.symm⟩
  have h2 : ext <:+ (t ++ ext) := List.suffix_append t ext
  have h3 : ('/' :: sd) <:+ ext := by
    refine List.suffix_of_suffix_length_le h1 h2 ?_
    simp only [List.length_cons]
    omega
  exact hns (h3.subset (List.mem_cons_self '/' sd))

theorem endsWithCI_pathJoin_hbs {a : String} {p : List String} (hp : p ≠ [])
    (hg : ∀ s ∈ p, goodSeg s) :
    endsWithCI (pathJoin a (pathString p)) ".hbs" = endsWithCI (pathString p) ".hbs" := by
  unfold endsWithCI
  rw [decide_eq_decide]
  rw [pathJoin_data_eq hp hg, List.map_append]
  by_cases hlen : ((".hbs" : String).data.map charLower).length ≤
      ((pathString p).data.map charLower).length
  · exact suffix_append_iff_of_le hlen
  · push_neg at hlen
    refine iff_of_false ?_ ?_
    · refine suffix_append_false ?_ hlen (by decide)
      rw [List.getLast?_map, squash_append_slash_getLast]
      rfl
    · intro h
      have := h.length_le
      omega

/-! ## Lemmas about the additional-page fold -/

theorem filterMap_ext {α β : Type} {l : List α} {f g : α → Option β}
    (h : ∀ a ∈ l, f a = g a) : l.filterMap f = l.filterMap g := by
  induction l with
  | nil => rfl
  | cons a rest ih =>
    rw [List.filterMap_cons, List.filterMap_cons, h a (List.mem_cons_self a rest),
      ih (fun a' ha' => h a' (List.mem_cons_of_mem a ha'))]

theorem foldl_additionalPageStep_writes (render : String → String)
    (outDir pagesPath : String) :
    ∀ (files : List (List String × String))
      (acc : Bool × List (String × String) × List String),
      (files.foldl (additionalPageStep render outDir pagesPath) acc).2.1 =
        acc.2.1 ++ files.filterMap (fun pc =>
          if endsWithCI (pathJoin pagesPath (pathString pc.1)) ".hbs" then
            some (stripSuffixCI (pathJoin outDir (pathString pc.1)) ".hbs", render pc.2)
          else none) := by
  intro files
  induction files with
  | nil => intro acc; simp
  | cons pc rest ih =>
    intro acc
    rw [List.foldl_cons, List.filterMap_cons, ih]
    by_cases h : endsWithCI (pathJoin pagesPath (pathString pc.1)) ".hbs" = true
    · simp [additionalPageStep, h]
    · simp [additionalPageStep, h]

theorem foldl_additionalPageStep_logs (render : String → String)
    (outDir pagesPath : String) :
    ∀ (files : List (List String × String))
      (acc : Bool × List (String × String) × List String),
      (files.foldl (additionalPageStep render outDir pagesPath) acc).2.2 =
        acc.2.2 ++ files.filterMap (fun pc =>
          if endsWithCI (pathJoin pagesPath (pathString pc.1)) ".hbs" then none
          else some ("⚠️ Ignoring page: " ++ pathJoin pagesPath (pathString pc.1) ++
            " (filename doesn't end with .hbs)")) := by
  intro files
  induction files with
  | nil => intro acc; simp
  | cons pc rest ih =>
    intro acc
    rw [List.foldl_cons, List.filterMap_cons, ih]
    by_cases h : endsWithCI (pathJoin pagesPath (pathString pc.1)) ".hbs" = true
    · simp [additionalPageStep, h]
    · simp [additionalPageStep, h]

/-! ## Claim C8: the additional-page walk -/

/-- C8: over any well-formed additional-pages directory tree, the walk
succeeds and visits every reachable file exactly once (the walker's file
list is a permutation of the structural file list, whose relative paths
are distinct): each file whose name ends in `.hbs` (case-insensitively)
yields exactly one write of the rendered template at the mirrored output
path with the suffix stripped, and each file without the suffix yields no
write but exactly one ignore log line, with no error. -/
theorem c8_additionalPages_walk (es : List (String × FNode)) (render : String → String)
    (outDir pagesPath : String) (hwf : WfNode (.dir es)) :
    ∃ found writes logs,
      templateAndWriteAdditionalPages (.node (.dir es)) render outDir pagesPath =
        Except.ok (found, writes, logs) ∧
      writes ~ pageOutputs render outDir es ∧
      logs ~ pageIgnores pagesPath es ∧
      (readdirLoop ((es.map (fun e => ([e.1], e.2))).reverse)).map Prod.fst ~
        (allFilesEntries es).map Prod.fst ∧
      ((readdirLoop ((es.map (fun e => ([e.1], e.2))).reverse)).map Prod.fst).Nodup := by
  have hng := allFiles_nodup_good (.dir es) hwf
  rw [show allFiles (FNode.dir es) = allFilesEntries es from rfl] at hng
  have hperm := walk_perm es
  have hcond : ∀ pc ∈ allFilesEntries es,
      endsWithCI (pathJoin pagesPath (pathString pc.1)) ".hbs" =
        endsWithCI (pathString pc.1) ".hbs" := by
    intro pc hpc
    obtain ⟨e, -, q, -, rfl⟩ := allFilesEntries_shape es pc hpc
    exact endsWithCI_pathJoin_hbs (by simp) (hng.2 _ hpc)
  refine ⟨_, _, _, rfl, ?_, ?_, hperm.map Prod.fst, ?_⟩
  · rw [foldl_additionalPageStep_writes]
    dsimp only
    rw [List.nil_append]
    have heq : (allFilesEntries es).filterMap (fun pc =>
        if endsWithCI (pathJoin pagesPath (pathString pc.1)) ".hbs" then
          some (stripSuffixCI (pathJoin outDir (pathString pc.1)) ".hbs", render pc.2)
        else none) = pageOutputs render outDir es :=
      filterMap_ext (fun pc hpc => by rw [hcond pc hpc])
    rw [← heq]
    exact hperm.filterMap _
  · rw [foldl_additionalPageStep_logs]
    dsimp only
    rw [List.nil_append]
    have heq : (allFilesEntries es).filterMap (fun pc =>
        if endsWithCI (pathJoin pagesPath (pathString pc.1)) ".hbs" then none
        else some ("⚠️ Ignoring page: " ++ pathJoin pagesPath (pathString pc.1) ++
          " (filename doesn't end with .hbs)")) = pageIgnores pagesPath es :=
      filterMap_ext (fun pc hpc => by rw [hcond pc hpc])
    rw [← heq]
    exact hperm.filterMap _
  · exact ((hperm.map Prod.fst).nodup_iff).mpr hng.1

theorem pagesC8_wf : WfNode (.dir pagesC8) := by
  refine WfNode.dir _ (by decide) ?_ ?_
  · intro e he
    rw [pagesC8] at he
    rcases List.mem_cons.mp he with rfl | he'
    · exact ⟨by decide, by decide⟩
    rcases List.mem_cons.mp he' with rfl | he''
    · exact ⟨by decide, by decide⟩
    · cases he''
  · intro e he
    rw [pagesC8] at he
    rcases List.mem_cons.mp he with rfl | he'
    · exact WfNode.file _
    rcases List.mem_cons.mp he' with rfl | he''
    · exact WfNode.file _
    · cases he''

/-- C8 witness: the walk property instantiated at the concrete two-file
tree `pagesC8` (one `.hbs` template, one `.txt` passthrough file). -/
theorem c8_witness :
    WfNode (.dir pagesC8) ∧
    (∃ found writes logs,
      templateAndWriteAdditionalPages (.node (.dir pagesC8)) (fun s => "R" ++ s)
          "/site/dist" "/site/pages" = Except.ok (found, writes, logs) ∧
      writes ~ pageOutputs (fun s => "R" ++ s) "/site/dist" pagesC8 ∧
      logs ~ pageIgnores "/site/pages" pagesC8 ∧
      (readdirLoop ((pagesC8.map (fun e => ([e.1], e.2))).reverse)).map Prod.fst ~
        (allFilesEntries pagesC8).map Prod.fst ∧
      ((readdirLoop ((pagesC8.map (fun e => ([e.1], e.2))).reverse)).map Prod.fst).Nodup) :=
  ⟨pagesC8_wf,
    c8_additionalPages_walk pagesC8 (fun s => "R" ++ s) "/site/dist" "/site/pages" pagesC8_wf⟩

/-! ## Claim C2: abort on pairing violations vs. prior writes -/

/-- C2 (refuting evaluation): a site whose post directory holds one
orphaned metadata file (a pairing violation, first conjunct) makes the run
abort, yet at that moment the static asset `logo.png` has already been
copied into the output directory — the static copy runs before post
validation, so the abort does not happen with "no partial output". -/
theorem c2_counterexample :
    readAllPosts "/site/posts/" ["orphan.json"] metaZero = none ∧
    mainRun "1.0.0" "/site" (defaultManifest "1.0.0")
        (FsEntry.node (FNode.dir [("logo.png", FNode.file "PNG")]))
        (FsEntry.node (FNode.dir [("orphan.json", FNode.file "J")])) metaZero
        FsEntry.absent FsEntry.absent (fun _ => "P") (fun p => p.slug) id =
      ⟨false, [("/site/dist/logo.png", "PNG")]⟩ := by
  refine ⟨by decide, ?_⟩
  have hr : readdirR (FsEntry.node (FNode.dir [("orphan.json", FNode.file "J")])) =
      Except.ok [(["orphan.json"], "J")] := by
    simp [readdirR, readdirLoop]
  unfold mainRun
  rw [hr]
  decide

/-- C2 (amended): when the post corpus build fails (any pairing
violation), the run aborts with a failure status, but every file the
static-asset copy wrote beforehand remains: the result is exactly the
static writes, with no post or page writes added. -/
theorem c2_abort_keeps_prior_writes (generatorVersion baseDir : String)
    (manifest : SiteManifest) (staticE postE : FsEntry) (meta : String → PostMetadata)
    (partialsE additionalE : FsEntry) (renderPost renderPostPath : SitePost → String)
    (renderPage : String → String) (vres : Bool × List String)
    (staticWrites : List (String × String)) (postFiles : List (List String × String))
    (hv : checkManifestVersion generatorVersion manifest.version = some vres)
    (hv1 : vres.1 = true)
    (hs : (manifestSanityChecks baseDir manifest).1 = true)
    (hc : staticCopy staticE (pathJoin baseDir manifest.outputDir) = Except.ok staticWrites)
    (hr : readdirR postE = Except.ok postFiles)
    (hn : readAllPosts (pathJoin baseDir manifest.postSettings.postInputDir)
        (postFiles.map (fun pc => pathString pc.1)) meta = none) :
    mainRun generatorVersion baseDir manifest staticE postE meta partialsE additionalE
      renderPost renderPostPath renderPage = ⟨false, staticWrites⟩ := by
  unfold mainRun
  rw [hv]
  simp [hv1, hs, hc, hr, hn]

/-- C2 witness: the amended abort property instantiated at the concrete
orphaned-metadata site, with every hypothesis discharged by evaluation. -/
theorem c2_witness :
    checkManifestVersion "1.0.0" (defaultManifest "1.0.0").version = some (true, []) ∧
    (manifestSanityChecks "/site" (defaultManifest "1.0.0")).1 = true ∧
    readAllPosts (pathJoin "/site" (defaultManifest "1.0.0").postSettings.postInputDir)
      ([(["orphan.json"], "J")].map (fun pc => pathString pc.1)) metaZero = none ∧
    mainRun "1.0.0" "/site" (defaultManifest "1.0.0")
      (FsEntry.node (FNode.dir [("logo.png", FNode.file "PNG")]))
      (FsEntry.node (FNode.dir [("orphan.json", FNode.file "J")])) metaZero
      FsEntry.absent FsEntry.absent (fun _ => "P") (fun p => p.slug) id =
      ⟨false, [("/site/dist/logo.png", "PNG")]⟩ :=
  ⟨by decide, by decide, by decide,
    c2_abort_keeps_prior_writes "1.0.0" "/site" (defaultManifest "1.0.0")
      (FsEntry.node (FNode.dir [("logo.png", FNode.file "PNG")]))
      (FsEntry.node (FNode.dir [("orphan.json", FNode.file "J")])) metaZero
      FsEntry.absent FsEntry.absent (fun _ => "P") (fun p => p.slug) id
      (true, []) [("/site/dist/logo.png", "PNG")] [(["orphan.json"], "J")]
      (by decide) rfl (by decide) rfl (by simp [readdirR, readdirLoop]) (by decide)⟩

/-! ## Claim C9: recovery from absent optional directories -/

/-- C9: each optional directory (partial templates, additional pages,
static assets) that is absent is recovered locally as zero items — zero
partials, zero pages, zero copied files — while any other filesystem
failure on it still propagates as an error; a full run with all three
optional directories absent completes successfully with only the post
writes, and a run whose static directory fails with a non-ENOENT error
aborts. -/
theorem c9_optional_dirs_recovered :
    (readPartialTemplates FsEntry.absent = Except.ok (false, []) ∧
      ∀ e, readPartialTemplates (FsEntry.failed e) = Except.error e) ∧
    ((∀ render outDir pagesPath,
        templateAndWriteAdditionalPages FsEntry.absent render outDir pagesPath =
          Except.ok (false, [], [])) ∧
      ∀ e render outDir pagesPath,
        templateAndWriteAdditionalPages (FsEntry.failed e) render outDir pagesPath =
          Except.error e) ∧
    ((∀ outDir, staticCopy FsEntry.absent outDir = Except.ok []) ∧
      ∀ e outDir, staticCopy (FsEntry.failed e) outDir = Except.error e) ∧
    mainRun "1.0.0" "/site" (defaultManifest "1.0.0") FsEntry.absent
        (FsEntry.node (FNode.dir [("p1.html", FNode.file "H"), ("p1.json", FNode.file "J")]))
        metaZero FsEntry.absent FsEntry.absent (fun _ => "P") (fun p => p.slug) id =
      ⟨true, [("/site/dist/p1", "P")]⟩ ∧
    mainRun "1.0.0" "/site" (defaultManifest "1.0.0") (FsEntry.failed "EACCES")
        (FsEntry.node (FNode.dir [("p1.html", FNode.file "H"), ("p1.json", FNode.file "J")]))
        metaZero FsEntry.absent FsEntry.absent (fun _ => "P") (fun p => p.slug) id =
      ⟨false, []⟩ := by
  refine ⟨⟨rfl, fun e => rfl⟩,
    ⟨fun render outDir pagesPath => rfl, fun e render outDir pagesPath => rfl⟩,
    ⟨fun outDir => rfl, fun e outDir => rfl⟩, ?_, ?_⟩
  · have hr : readdirR (FsEntry.node
        (FNode.dir [("p1.html", FNode.file "H"), ("p1.json", FNode.file "J")])) =
        Except.ok [(["p1.json"], "J"), (["p1.html"], "H")] := by
      simp [readdirR, readdirLoop]
    unfold mainRun
    rw [hr]
    decide
  · decide

/-! ## Claim C10: a missing post input directory yields zero posts -/

/-- C10: `readdirR` yields no files for an absent directory, `readAllPosts`
on zero files passes the pairing validation vacuously and returns the
empty post list, and a full run whose post input directory is absent
continues and succeeds with zero post writes (here only the one static
asset is written). -/
theorem c10_missing_post_dir :
    readdirR FsEntry.absent = Except.ok [] ∧
    (∀ (d : String) (m : String → PostMetadata), readAllPosts d [] m = some []) ∧
    mainRun "1.0.0" "/site" (defaultManifest "1.0.0")
        (FsEntry.node (FNode.dir [("a.css", FNode.file "CSS")])) FsEntry.absent metaZero
        FsEntry.absent FsEntry.absent (fun _ => "P") (fun p => p.slug) id =
      ⟨true, [("/site/dist/a.css", "CSS")]⟩ := by
  refine ⟨rfl, fun d m => rfl, ?_⟩
  decide

end Wolfdog
